import Mathlib

/-!
# Verification of the Polyhorn reconciler core

This file gives a shallow embedding of the reconciliation engine of the
Polyhorn UI runtime and proves properties of it.

Embedded sources:
* `crates/polyhorn-core/src/render.rs` — the `Render` pass (`rerender`,
  `render`, `rerender_edges`, `rerender_builtin`, `rerender_component`,
  `rerender_context`, `rerender_fragment`, `unmount`) and the `Renderer`
  entry points.
* `crates/polyhorn-ios/src/raw/compositor.rs` — the concrete `Compositor`,
  `CommandBuffer` and `ContainerID` implementation.

The data model (`Element`, `Instance`, `Memory`) lives in files of the
repository that are not part of the provided sources; those definitions are
modelled from the specification's data-model section and are marked as such.

General recursion in the pass (the `render`/`rerender`/`rerender_edges`
knot recurses through the element tree) is embedded with an explicit fuel
argument; `RRes.noFuel` is an artifact of the embedding and never occurs
for sufficiently large fuel, while `RRes.panicked` models a Rust panic
(`unimplemented!`). All pass functions are structurally recursive on fuel,
so concrete runs evaluate by `rfl`/`decide`.
-/

namespace Polyhorn

/-- Modelled from the spec: `Element` (data model §3) is a tagged variant with
five cases. Every element carries a key (explicit, or derived from sibling
position; modelled as an explicit `Nat` field). A *Builtin* holds an opaque
platform descriptor (not modelled — it is only passed to the platform-side
initializer closure), an optional write-once reference slot (modelled by the
flag `hasRef`; a write to the slot is recorded as an event) and a single
`children` element. A *Component* holds a user callable that, given a
`Manager`, produces one child element and accumulates effect callbacks; the
callable and its `Manager` interaction are opaque user code, modelled by the
element the call produces (`produced`) and the labels of the effects it
enqueues (`effectLabels`). A *Context* carries an opaque value (not
modelled — no claim concerns the context frame) and `children`. A *Fragment*
is an ordered list of elements. A *String* is a text leaf. -/
inductive Element where
  | builtin (key : Nat) (hasRef : Bool) (children : Element)
  | component (key : Nat) (produced : Element) (effectLabels : List Nat)
  | context (key : Nat) (children : Element)
  | fragment (key : Nat) (elements : List Element)
  | string (key : Nat) (text : String)

/-- Modelled from the spec: `Element::key()`. -/
def Element.key : Element → Nat
  | .builtin k _ _ => k
  | .component k _ _ => k
  | .context k _ => k
  | .fragment k _ => k
  | .string k _ => k

/-- Whether an element is a *Builtin*. -/
def Element.isBuiltin : Element → Bool
  | .builtin _ _ _ => true
  | _ => false

/-- Modelled from the spec: an `Instance` is the per-node mutable bookkeeping
record: the element currently occupying the slot, the platform container id
this instance targets, and its `Memory` — the insertion-ordered mapping from
child key to owned child instance. The non-owning back-references to the
`Renderer` and to the parent instance are not representable in a tree and
are not modelled; the per-instance hook-state store is opaque user state and
is not modelled (no claim concerns it). -/
inductive Instance where
  | mk (element : Element) (containerId : Nat) (memory : List (Nat × Instance))

/-- The element currently occupying this instance's slot. -/
def Instance.element : Instance → Element
  | .mk el _ _ => el

/-- The container id this instance targets. -/
def Instance.containerId : Instance → Nat
  | .mk _ c _ => c

/-- The keyed child-instance memory, in insertion order. -/
def Instance.memory : Instance → List (Nat × Instance)
  | .mk _ _ m => m

/-- Modelled from the spec: `Memory::update` — overwrite the stored element
of an instance (render.rs:100 `existing.memory_mut().deref_mut().update(element)`). -/
def Instance.update : Instance → Element → Instance
  | .mk _ c m, e => .mk e c m

namespace Memory

/-- Modelled from the spec: `Memory::keys()` — the set K of keys currently in
memory (render.rs:90). Modelled as the list of keys in insertion order. -/
def keys (m : List (Nat × Instance)) : List Nat :=
  m.map Prod.fst

/-- Modelled from the spec: `Memory::edge(key)` — the child instance stored at
a key, if any (render.rs:97). -/
def edge (m : List (Nat × Instance)) (k : Nat) : Option Instance :=
  match m with
  | [] => none
  | p :: rest => if p.1 = k then some p.2 else edge rest k

/-- Modelled from the spec: `Memory::add_edge(key, instance)` — insert a fresh
child instance at a key (render.rs:111); insertion order is append order. -/
def addEdge (m : List (Nat × Instance)) (k : Nat) (inst : Instance) :
    List (Nat × Instance) :=
  m ++ [(k, inst)]

/-- Modelled from the spec: `Memory::remove_edge(key)` — remove and return the
child instance stored at a key (render.rs:118). -/
def removeEdge (m : List (Nat × Instance)) (k : Nat) :
    Option Instance × List (Nat × Instance) :=
  match m with
  | [] => (none, [])
  | p :: rest =>
    if p.1 = k then (some p.2, rest)
    else
      let r := removeEdge rest k
      (r.1, p :: r.2)

/-- In the source, the instance stored in memory is mutated in place through a
shared `Rc` when it is rerendered; in the pure model the entry at its key is
replaced by the updated instance. -/
def replaceEdge (m : List (Nat × Instance)) (k : Nat) (inst : Instance) :
    List (Nat × Instance) :=
  match m with
  | [] => []
  | p :: rest =>
    if p.1 = k then (k, inst) :: rest else p :: replaceEdge rest k inst

end Memory

/-- One observable step recorded against the pass's command buffer:
`mount`/`unmount` are the commands the reconciler records
(`CommandBuffer::mount`, `CommandBuffer::unmount`); `refSet` records the
write of a freshly mounted container id into a Builtin's reference slot
(render.rs:168-170); `effectRun` records the invocation of an effect callback
with the buffer (render.rs:68-70) — the callback body is opaque user code and
is modelled by its label alone. -/
inductive Event where
  | mount (id : Nat) (parentId : Nat)
  | unmount (id : Nat)
  | refSet (id : Nat)
  | effectRun (label : Nat)
deriving DecidableEq, Repr

/-- The state a render pass threads: the compositor's monotonic id counter
(`Compositor::counter`, compositor.rs:15) and the ordered event trace recorded
through the pass's command buffer. -/
structure St where
  counter : Nat
  trace : List Event
deriving DecidableEq, Repr

/-- Mirrors `CommandBuffer::mount` (compositor.rs:68-76) together with
`Compositor::next_id` (compositor.rs:29-32): allocate a fresh container id
synchronously from the monotonic counter and record a Mount command under the
given parent id. The platform initializer closure is opaque and runs only at
command-application time; it is not modelled. -/
def St.mount (parentId : Nat) (st : St) : Nat × St :=
  let id := st.counter
  (id, { counter := id + 1, trace := st.trace ++ [Event.mount id parentId] })

/-- Mirrors `CommandBuffer::unmount` (compositor.rs:86-88): record an Unmount
command. -/
def St.unmountCmd (id : Nat) (st : St) : St :=
  { st with trace := st.trace ++ [Event.unmount id] }

/-- The effect-application loop at the end of `Render::rerender_component`
(render.rs:68-70): each accumulated effect runs once, receiving the pass's
command buffer; the opaque callback is modelled as recording an `effectRun`
event carrying its label. -/
def applyEffects (labels : List Nat) (st : St) : St :=
  labels.foldl (fun s l => { s with trace := s.trace ++ [Event.effectRun l] }) st

/-- Result of a pass computation: `ok` is normal completion, `panicked` models
a Rust panic (the `unimplemented!` in `Render::rerender`, render.rs:146), and
`noFuel` is an artifact of the fuel embedding of general recursion. -/
inductive RRes (α : Type) where
  | ok (value : α)
  | panicked
  | noFuel

mutual

/-- Source `Render::unmount` (render.rs:124-135), child-list part: unmount
every child instance in memory order, recursively, before the instance's own
container is considered. -/
def Render.unmountEdges : List (Nat × Instance) → St → St
  | [], st => st
  | p :: rest, st => Render.unmountEdges rest (Render.unmountAux p.2 st)

/-- Source `Render::unmount` (render.rs:124-135): recursively unmount all
children first; then, if the instance's element is a *Builtin*, record an
`Unmount` command for its container; any other variant records nothing. -/
def Render.unmountAux : Instance → St → St
  | .mk el cont mem, st =>
    let st := Render.unmountEdges mem st
    match el with
    | .builtin _ _ _ => st.unmountCmd cont
    | _ => st

end

/-- Entry point name kept close to the source: `Render::unmount`. -/
def Render.unmount (inst : Instance) (st : St) : St :=
  Render.unmountAux inst st

/-- The sweep loop at the end of `Render::rerender_edges` (render.rs:115-121):
for every key left in K, remove the corresponding child instance from memory
(if present) and unmount it. -/
def Render.sweepEdges : List Nat → List (Nat × Instance) → St →
    List (Nat × Instance) × St
  | [], mem, st => (mem, st)
  | k :: rest, mem, st =>
    match Memory.removeEdge mem k with
    | (some inst, mem') => Render.sweepEdges rest mem' (Render.unmount inst st)
    | (none, mem') => Render.sweepEdges rest mem' st

mutual

/-- Source `Render::rerender_builtin` (render.rs:33-35): reconcile the single
`children` element as the edge list. -/
def Render.rerenderBuiltin : Nat → Instance → Element → St → RRes (Instance × St)
  | 0, _, _, _ => .noFuel
  | fuel + 1, inst, children, st => Render.rerenderEdges fuel inst [children] st

/-- Source `Render::rerender_component` (render.rs:37-71): invoke the component
function once (through its `Manager`) to obtain a single-element edge list and
the accumulated effects; reconcile the edges; then apply each effect to the
pass's command buffer. The `Manager` construction, state store, context frame
and bus are opaque here: the callable's behaviour is carried by the element's
`produced`/`effectLabels` fields. -/
def Render.rerenderComponent : Nat → Instance → Element → List Nat → St →
    RRes (Instance × St)
  | 0, _, _, _, _ => .noFuel
  | fuel + 1, inst, produced, effectLabels, st =>
    match Render.rerenderEdges fuel inst [produced] st with
    | .ok (inst', st') => .ok (inst', applyEffects effectLabels st')
    | .panicked => .panicked
    | .noFuel => .noFuel

/-- Source `Render::rerender_context` (render.rs:73-77): the context value is
written into the instance's context frame (not modelled — no claim concerns
the frame) and the single `children` element is reconciled as the edge list. -/
def Render.rerenderContext : Nat → Instance → Element → St → RRes (Instance × St)
  | 0, _, _, _ => .noFuel
  | fuel + 1, inst, children, st => Render.rerenderEdges fuel inst [children] st

/-- Source `Render::rerender_fragment` (render.rs:79-81): reconcile the ordered
element list as the edges. -/
def Render.rerenderFragment : Nat → Instance → List Element → St → RRes (Instance × St)
  | 0, _, _, _ => .noFuel
  | fuel + 1, inst, elements, st => Render.rerenderEdges fuel inst elements st

/-- Source `Render::rerender_edges` (render.rs:83-122), mark-and-sweep: collect
the set K of keys of the instance's memory, run the loop over the new edges,
then sweep: unmount every instance whose key is still in K. The reconciled
instance keeps its element and container id; only its memory changes. -/
def Render.rerenderEdges : Nat → Instance → List Element → St → RRes (Instance × St)
  | 0, _, _, _ => .noFuel
  | fuel + 1, inst, edges, st =>
    let keys := Memory.keys inst.memory
    match Render.edgesLoop fuel inst inst.memory keys edges st with
    | .ok (memory, keys, st) =>
      let (memory, st) := Render.sweepEdges keys memory st
      .ok (.mk inst.element inst.containerId memory, st)
    | .panicked => .panicked
    | .noFuel => .noFuel

/-- The `for element in edges` loop of `Render::rerender_edges`
(render.rs:92-113): for each new element in order, mark its key as live by
removing it from K; if memory already has an edge at the key, overwrite the
stored element of the existing child and rerender it (the mutation through the
shared `Rc` is modelled by replacing the memory entry with the rerendered
child); otherwise render a fresh child with this instance as parent and this
instance's container id, and add it to memory at the key. -/
def Render.edgesLoop : Nat → Instance → List (Nat × Instance) → List Nat →
    List Element → St → RRes (List (Nat × Instance) × List Nat × St)
  | 0, _, _, _, _, _ => .noFuel
  | fuel + 1, inst, memory, keys, edges, st =>
    match edges with
    | [] => .ok (memory, keys, st)
    | element :: rest =>
      let key := element.key
      let keys := keys.erase key
      match Memory.edge memory key with
      | some existing =>
        match Render.rerender fuel (existing.update element) st with
        | .ok (existing', st') =>
          Render.edgesLoop fuel inst (Memory.replaceEdge memory key existing')
            keys rest st'
        | .panicked => .panicked
        | .noFuel => .noFuel
      | none =>
        match Render.render fuel (some inst) element inst.containerId st with
        | .ok (child, st') =>
          Render.edgesLoop fuel inst (Memory.addEdge memory key child) keys rest st'
        | .panicked => .panicked
        | .noFuel => .noFuel

/-- Source `Render::rerender` (render.rs:138-148): dispatch on the instance's
current element. The *String* arm is `unimplemented!("Can't render string
element directly.")`, modelled as `panicked`. -/
def Render.rerender : Nat → Instance → St → RRes (Instance × St)
  | 0, _, _ => .noFuel
  | fuel + 1, inst, st =>
    match inst.element with
    | .builtin _ _ children => Render.rerenderBuiltin fuel inst children st
    | .component _ produced effectLabels =>
      Render.rerenderComponent fuel inst produced effectLabels st
    | .context _ children => Render.rerenderContext fuel inst children st
    | .fragment _ elements => Render.rerenderFragment fuel inst elements st
    | .string _ _ => .panicked

/-- Source `Render::render` (render.rs:152-186): when the element is a
*Builtin*, ask the command buffer to mount a new child container under the
current container id (the initializer closure that instantiates the platform
container under the environment's lock is opaque and not modelled); the
returned fresh id becomes this instance's container id, and if the Builtin
carries a reference slot the id is written into it. Any other element variant
inherits `inContainer`. A new instance with empty memory is created and the
rest is a re-render of it. The `parent` argument is stored in the source as a
non-owning back-reference, which a tree cannot represent; it is threaded but
not stored. -/
def Render.render : Nat → Option Instance → Element → Nat → St → RRes (Instance × St)
  | 0, _, _, _, _ => .noFuel
  | fuel + 1, _parent, element, inContainer, st =>
    let cs :=
      match element with
      | .builtin _ hasRef _ =>
        let (id, st) := st.mount inContainer
        let st := if hasRef then { st with trace := st.trace ++ [Event.refSet id] } else st
        (id, st)
      | _ => (inContainer, st)
    let inst : Instance := .mk element cs.1 []
    Render.rerender fuel inst cs.2

end

/-- Source `Renderer::rerender` (render.rs:216-225): enqueue a task on the bus
that acquires a fresh command buffer from the compositor, reruns the pass for
the instance and commits the buffer. The bus is a serial queue (the task runs
alone); modelled as running the pass on a fresh buffer (empty trace, the
compositor's current counter) and returning the reconciled instance together
with the final buffer state, whose trace is what `commit` then applies in
order. -/
def Renderer.rerender (fuel : Nat) (inst : Instance) (counter : Nat) :
    RRes (Instance × St) :=
  Render.rerender fuel inst { counter := counter, trace := [] }

/-- Source `Renderer::render` (render.rs:227-237): run a fresh render pass of
an element into a container on a fresh buffer and commit. -/
def Renderer.render (fuel : Nat) (element : Element) (container : Nat)
    (counter : Nat) : RRes (Instance × St) :=
  Render.render fuel none element container { counter := counter, trace := [] }

/-! ## Derived structure functions and specification-side definitions -/

/-- The ordered child-edge list that reconciling an element hands to
`rerender_edges`: a Builtin or Context recurses into its single `children`
element, a Component into the element its callable produces, a Fragment into
its ordered element list; a String reaches no edges (it panics first). -/
def Element.edges : Element → List Element
  | .builtin _ _ c => [c]
  | .component _ p _ => [p]
  | .context _ c => [c]
  | .fragment _ es => es
  | .string _ _ => []

/-- A key list is duplicate-free. -/
def nodupKeys : List Nat → Bool
  | [] => true
  | k :: rest => !rest.contains k && nodupKeys rest

mutual

/-- Spec data-model assumption: "Keys are unique among siblings of the same
Instance" — at every level of an element tree the child-edge keys are
duplicate-free. -/
def uniqueKeysE : Element → Bool
  | .builtin _ _ c => uniqueKeysE c
  | .component _ p _ => uniqueKeysE p
  | .context _ c => uniqueKeysE c
  | .fragment _ es => nodupKeys (es.map Element.key) && uniqueKeysL es
  | .string _ _ => true

def uniqueKeysL : List Element → Bool
  | [] => true
  | e :: rest => uniqueKeysE e && uniqueKeysL rest

end

mutual

/-- Spec invariant I2 for the instance tree: the memory key list is
duplicate-free at every level. -/
def nodupMemI : Instance → Bool
  | .mk _ _ mem => nodupKeys (Memory.keys mem) && nodupMemL mem

def nodupMemL : List (Nat × Instance) → Bool
  | [] => true
  | p :: rest => nodupMemI p.2 && nodupMemL rest

end

mutual

/-- An element tree contains a String element at a position edge
reconciliation reaches: Builtin and Context reach their `children`, a
Component reaches the element its callable produces, a Fragment reaches each
listed element. -/
def reachesString : Element → Bool
  | .builtin _ _ c => reachesString c
  | .component _ p _ => reachesString p
  | .context _ c => reachesString c
  | .fragment _ es => reachesStringL es
  | .string _ _ => true

def reachesStringL : List Element → Bool
  | [] => false
  | e :: rest => reachesString e || reachesStringL rest

end

mutual

/-- The number of Builtin elements a fresh render of an element walks: each
contributes exactly one newly appearing Builtin key (spec P1). -/
def elemBuiltins : Element → Nat
  | .builtin _ _ c => elemBuiltins c + 1
  | .component _ p _ => elemBuiltins p
  | .context _ c => elemBuiltins c
  | .fragment _ es => elemBuiltinsL es
  | .string _ _ => 0

def elemBuiltinsL : List Element → Nat
  | [] => 0
  | e :: rest => elemBuiltins e + elemBuiltinsL rest

end

mutual

/-- Spec "Unmount (post-order)": for an instance being removed, the container
ids of the Builtin instances of its subtree in unmount order — all
descendants (children in memory order, each recursively) before the
instance's own container id; a non-Builtin instance contributes no id of its
own. -/
def removedBuiltinIds : Instance → List Nat
  | .mk el cont mem =>
    removedBuiltinIdsL mem ++ (match el with | .builtin _ _ _ => [cont] | _ => [])

def removedBuiltinIdsL : List (Nat × Instance) → List Nat
  | [] => []
  | p :: rest => removedBuiltinIds p.2 ++ removedBuiltinIdsL rest

end

/-- Whether an event is a Mount command. -/
def Event.isMount : Event → Bool
  | .mount _ _ => true
  | _ => false

/-- Whether an event is a command recorded in the buffer (Mount or Unmount);
reference writes and effect runs are not commands. -/
def Event.isCmd : Event → Bool
  | .mount _ _ => true
  | .unmount _ => true
  | _ => false

/-- The number of Mount commands in a trace. -/
def countMount (tr : List Event) : Nat :=
  (tr.filter Event.isMount).length

/-- The container ids of the Unmount commands in a trace, in emission order. -/
def unmountSeq (tr : List Event) : List Nat :=
  tr.filterMap (fun e => match e with | .unmount i => some i | _ => none)

/-- The subtrace of commands (Mounts and Unmounts) of a trace. -/
def cmdEvents (tr : List Event) : List Event :=
  tr.filter Event.isCmd

mutual

/-- Size measure on elements, used for termination of specification-side
recursions that mirror the pass. -/
def esize : Element → Nat
  | .builtin _ _ c => esize c + 2
  | .component _ p _ => esize p + 2
  | .context _ c => esize c + 2
  | .fragment _ es => lsize es + 2
  | .string _ _ => 1

def lsize : List Element → Nat
  | [] => 0
  | e :: rest => esize e + lsize rest + 1

end

/-- The ids the sweep phase unmounts, per the spec: "After all new edges are
processed, K contains exactly the keys of children no longer present" — the
memory keys that are not keys of the new edge list — "for each such key,
remove the child instance from I.Memory and unmount it". -/
def specSwept (mem : List (Nat × Instance)) (edgeKeys : List Nat) : List Nat :=
  ((Memory.keys mem).filter (fun k => !edgeKeys.contains k)).flatMap
    (fun k =>
      match Memory.edge mem k with
      | some c => removedBuiltinIds c
      | none => [])

mutual

/-- Spec (P2): the container ids of the Builtin instances whose keys
disappear during a reconcile of an element against a memory, in unmount
order: per new edge in order, a matched existing child recursively
contributes the disappearances of its own reconcile (a fresh child
contributes none — it has no memory); afterwards the sweep contributes, for
every memory key not among the new edge keys, the removed child subtree's
Builtin ids in post-order. -/
def specUnmounts (el : Element) (mem : List (Nat × Instance)) : List Nat :=
  specUnmountsLoop mem el.edges ++ specSwept mem (el.edges.map Element.key)
termination_by esize el
decreasing_by cases el <;> simp only [Element.edges, esize, lsize] <;> omega

def specUnmountsLoop (mem : List (Nat × Instance)) : List Element → List Nat
  | [] => []
  | e :: rest =>
    (match Memory.edge mem e.key with
     | some c => specUnmounts e c.memory
     | none => []) ++ specUnmountsLoop mem rest
termination_by edges => lsize edges
decreasing_by all_goals (simp only [lsize]; omega)

end

mutual

/-- Spec (P1): the number of newly appearing Builtin keys in the diff of a
reconcile of an element against a memory: per new edge in order, a matched
existing child contributes the newly appearing Builtin keys of its own
recursive reconcile, while a fresh child contributes one for every Builtin
element of its subtree; the sweep contributes none. -/
def specMounts (el : Element) (mem : List (Nat × Instance)) : Nat :=
  specMountsLoop mem el.edges
termination_by esize el
decreasing_by cases el <;> simp only [Element.edges, esize, lsize] <;> omega

def specMountsLoop (mem : List (Nat × Instance)) : List Element → Nat
  | [] => 0
  | e :: rest =>
    (match Memory.edge mem e.key with
     | some c => specMounts e c.memory
     | none => elemBuiltins e) + specMountsLoop mem rest
termination_by edges => lsize edges
decreasing_by all_goals (simp only [lsize]; omega)

end

mutual

/-- Spec (P3) hypothesis, "two successive identical element trees": the
element tree is unchanged relative to the instance tree — at every level the
memory's key list coincides, in order and duplicate-free, with the keys of
the new edge list, and every child instance is recursively unchanged under
its aligned new element. -/
def unchangedE : Element → List (Nat × Instance) → Bool
  | .builtin _ _ c, mem => nodupKeys (Memory.keys mem) && unchangedEdges mem [c]
  | .component _ p _, mem => nodupKeys (Memory.keys mem) && unchangedEdges mem [p]
  | .context _ c, mem => nodupKeys (Memory.keys mem) && unchangedEdges mem [c]
  | .fragment _ es, mem => nodupKeys (Memory.keys mem) && unchangedEdges mem es
  | .string _ _, _ => false
termination_by el _ => esize el
decreasing_by all_goals (simp only [esize, lsize]; omega)

def unchangedEdges : List (Nat × Instance) → List Element → Bool
  | [], [] => true
  | p :: restM, e :: restE =>
    p.1 == e.key && unchangedE e p.2.memory && unchangedEdges restM restE
  | _, _ => false
termination_by _ edges => lsize edges
decreasing_by all_goals (simp only [lsize]; omega)

end

/-- The marks bookkeeping of the loop, in isolation: the keys of the new
edges, erased in order from the starting key set (render.rs:93-95). -/
def eraseAllKeys (keys : List Nat) (edges : List Element) : List Nat :=
  edges.foldl (fun ks e => ks.erase e.key) keys

/-- The per-edge loop of the spec's mark-and-sweep description of edge
reconciliation, without the mark bookkeeping: "For each new element e in
order: let k = e.key(); ... If I.Memory has an existing child at k, overwrite
its stored element with e and recursively rerender that child instance.
Otherwise, invoke `render(I, e, I.container_id)` to create a fresh child
instance and insert it at k." The recursive work is the source pass itself
(a one-level specification); the fuel discipline matches the source loop's. -/
def specEdgesLoop : Nat → Instance → List (Nat × Instance) → List Element → St →
    RRes (List (Nat × Instance) × St)
  | 0, _, _, _, _ => .noFuel
  | fuel + 1, inst, memory, edges, st =>
    match edges with
    | [] => .ok (memory, st)
    | element :: rest =>
      let key := element.key
      match Memory.edge memory key with
      | some existing =>
        match Render.rerender fuel (existing.update element) st with
        | .ok (existing', st') =>
          specEdgesLoop fuel inst (Memory.replaceEdge memory key existing') rest st'
        | .panicked => .panicked
        | .noFuel => .noFuel
      | none =>
        match Render.render fuel (some inst) element inst.containerId st with
        | .ok (child, st') =>
          specEdgesLoop fuel inst (Memory.addEdge memory key child) rest st'
        | .panicked => .panicked
        | .noFuel => .noFuel

/-- The spec's mark-and-sweep description of edge reconciliation (§4.1):
process each new element in order; afterwards "K contains exactly the keys of
children no longer present" — stated directly as the memory keys that are not
among the new edge keys — and for each such key the child instance is removed
from memory and unmounted. -/
def rerenderEdgesSpec : Nat → Instance → List Element → St → RRes (Instance × St)
  | 0, _, _, _ => .noFuel
  | fuel + 1, inst, edges, st =>
    match specEdgesLoop fuel inst inst.memory edges st with
    | .ok (memory, st) =>
      let dead := (Memory.keys inst.memory).filter
        (fun k => !(edges.map Element.key).contains k)
      let ms := Render.sweepEdges dead memory st
      .ok (.mk inst.element inst.containerId ms.1, ms.2)
    | .panicked => .panicked
    | .noFuel => .noFuel

/-- Invariant I4 for a freshly created subtree, relative to the container id
the subtree was rendered into: an instance whose element is not a Builtin
targets exactly that container id (a Builtin targets its own fresh one), and
every memory child relates in the same way to this instance's container id
(the loop renders fresh children into `instance.container()`). -/
inductive ContOk : Nat → Instance → Prop where
  | intro (parentCont : Nat) (el : Element) (cont : Nat)
      (mem : List (Nat × Instance))
      (hSelf : el.isBuiltin = false → cont = parentCont)
      (hMem : ∀ p ∈ mem, ContOk cont p.2) :
      ContOk parentCont (.mk el cont mem)

/-! ## The iOS compositor and command buffer (compositor.rs) -/

namespace Ios

/-- A recorded command (`polyhorn_core::Command`), identified by its ids; the
initializer and mutator closures are opaque platform callbacks and are not
modelled. -/
inductive Cmd where
  | mount (id : Nat) (parentId : Nat)
  | mutate (ids : List Nat)
  | unmount (id : Nat)
deriving DecidableEq, Repr

/-- `Compositor` (compositor.rs:13-17): carries the shared monotonic id
counter (`Arc<AtomicUsize>`). The queue-bound composition state and the
shared layout tree are opaque platform state and are not modelled. -/
structure Compositor where
  counter : Nat
deriving DecidableEq, Repr

/-- `Compositor::next_id` (compositor.rs:29-32): `fetch_add(1,
Ordering::Relaxed)` on the `AtomicUsize` counter returns the current value
and stores the incremented one; atomic `fetch_add` wraps around on overflow,
and `usize` is 64 bits wide on the supported targets, so the stored counter
advances modulo `2 ^ 64`. -/
def Compositor.nextId (c : Compositor) : Nat × Compositor :=
  (c.counter, { counter := (c.counter + 1) % 2 ^ 64 })

/-- `CommandBuffer` (compositor.rs:62-65): the buffered command list. In the
source the buffer also holds a clone of the compositor sharing its counter
through an `Arc`; the shared counter is threaded explicitly here. -/
structure CommandBuffer where
  commands : List Cmd
deriving DecidableEq, Repr

/-- `Compositor::buffer()` (compositor.rs:47-54): a fresh buffer starts with
an empty command list. -/
def Compositor.buffer (_c : Compositor) : CommandBuffer :=
  { commands := [] }

/-- `CommandBuffer::mount` (compositor.rs:68-76): allocate a fresh id
synchronously via `next_id` on the shared compositor counter, record
`Command::Mount(id, parent_id, initializer)`, and return the id. -/
def CommandBuffer.mount (cb : CommandBuffer) (c : Compositor) (parentId : Nat) :
    Nat × Compositor × CommandBuffer :=
  let r := c.nextId
  (r.1, r.2, { commands := cb.commands ++ [Cmd.mount r.1 parentId] })

/-- `CommandBuffer::unmount` (compositor.rs:86-88): record removal. -/
def CommandBuffer.unmountCmd (cb : CommandBuffer) (id : Nat) : CommandBuffer :=
  { commands := cb.commands ++ [Cmd.unmount id] }

/-- Modelled from the spec: the composition state lives on the platform's
main queue and `Composition::process` is not among the provided sources; per
the spec, commands from a commit are applied in order, one after the other,
so the applied state is modelled as the list of commands processed so far in
application order. -/
def applyAll (state : List Cmd) (commands : List Cmd) : List Cmd :=
  state ++ commands

/-- `CommandBuffer::commit` (compositor.rs:97-109): take the buffered command
list out of the buffer — `mem::take` leaves the buffer's own list empty (the
emptied buffer is returned to make that observable; in Rust `commit` then
consumes it) — and apply each taken command, in order, to the compositor's
state. -/
def CommandBuffer.commit (cb : CommandBuffer) (state : List Cmd) :
    List Cmd × CommandBuffer :=
  (applyAll state cb.commands, { commands := [] })

/-- A sequence of `mount` calls against command buffers of one compositor:
the buffers' contents do not feed back into id allocation, so the sequence is
determined by threading the shared counter; returns the ids handed out. -/
def mountIds (c : Compositor) : List Nat → List Nat
  | [] => []
  | parentId :: rest =>
    let r := (Compositor.buffer c).mount c parentId
    r.1 :: mountIds r.2.1 rest

end Ios

/-! ## Theorems

First general-purpose lemmas about the embedded operations, then one theorem
per verified claim (each preceded by a doc comment naming the claim). -/

@[simp]
theorem Instance.element_mk (el : Element) (c : Nat) (m : List (Nat × Instance)) :
    (Instance.mk el c m).element = el := rfl

@[simp]
theorem Instance.containerId_mk (el : Element) (c : Nat) (m : List (Nat × Instance)) :
    (Instance.mk el c m).containerId = c := rfl

@[simp]
theorem Instance.memory_mk (el : Element) (c : Nat) (m : List (Nat × Instance)) :
    (Instance.mk el c m).memory = m := rfl

@[simp]
theorem Instance.element_update (inst : Instance) (e : Element) :
    (inst.update e).element = e := by cases inst; rfl

@[simp]
theorem Instance.containerId_update (inst : Instance) (e : Element) :
    (inst.update e).containerId = inst.containerId := by cases inst; rfl

@[simp]
theorem Instance.memory_update (inst : Instance) (e : Element) :
    (inst.update e).memory = inst.memory := by cases inst; rfl

theorem mountIds_nowrap (parents : List Nat) :
    ∀ c : Ios.Compositor, c.counter + parents.length ≤ 2 ^ 64 →
      Ios.mountIds c parents = List.range' c.counter parents.length := by
  induction parents with
  | nil => intro c _; rfl
  | cons p rest ih =>
    intro c h
    simp only [List.length_cons] at h ⊢
    simp only [Ios.mountIds, Ios.CommandBuffer.mount, Ios.Compositor.nextId]
    rw [show List.range' c.counter (rest.length + 1) =
      c.counter :: List.range' (c.counter + 1) rest.length from rfl]
    by_cases hlt : c.counter + 1 < 2 ^ 64
    · rw [Nat.mod_eq_of_lt hlt]
      exact congrArg (c.counter :: ·)
        (ih { counter := c.counter + 1 } (show c.counter + 1 + rest.length ≤ 2 ^ 64 by omega))
    · have h0 : rest.length = 0 := by omega
      rw [List.length_eq_zero.mp h0]
      rfl

theorem range1_lower (n : Nat) : ∀ s : Nat, ∀ x ∈ List.range' s n, s ≤ x := by
  induction n with
  | zero => intro s x hx; exact nomatch hx
  | succ m ih =>
    intro s x hx
    rw [show List.range' s (m + 1) = s :: List.range' (s + 1) m from rfl] at hx
    rcases List.mem_cons.mp hx with rfl | hx2
    · exact Nat.le_refl _
    · exact Nat.le_trans (Nat.le_succ s) (ih (s + 1) x hx2)

theorem range1_pairwise (n : Nat) : ∀ s : Nat, (List.range' s n).Pairwise (· < ·) := by
  induction n with
  | zero => intro s; exact List.Pairwise.nil
  | succ m ih =>
    intro s
    rw [show List.range' s (m + 1) = s :: List.range' (s + 1) m from rfl,
      List.pairwise_cons]
    exact ⟨fun y hy => Nat.lt_of_lt_of_le (Nat.lt_succ_self s) (range1_lower m (s + 1) y hy),
      ih (s + 1)⟩

theorem mountIds_replicate_mod (n : Nat) :
    ∀ c0 : Nat, c0 < 2 ^ 64 →
      Ios.mountIds { counter := c0 } (List.replicate n 0) =
        (List.range n).map (fun i => (c0 + i) % 2 ^ 64) := by
  induction n with
  | zero => intro c0 _; rfl
  | succ m ih =>
    intro c0 hc0
    rw [List.replicate_succ]
    simp only [Ios.mountIds, Ios.CommandBuffer.mount, Ios.Compositor.nextId]
    rw [ih ((c0 + 1) % 2 ^ 64) (Nat.mod_lt _ (Nat.two_pow_pos 64))]
    rw [List.range_succ_eq_map, List.map_cons, List.map_map, List.cons.injEq]
    constructor
    · show c0 = (c0 + 0) % 2 ^ 64
      rw [Nat.add_zero, Nat.mod_eq_of_lt hc0]
    · refine List.map_congr_left fun a _ => ?_
      show ((c0 + 1) % 2 ^ 64 + a) % 2 ^ 64 = (c0 + Nat.succ a) % 2 ^ 64
      rw [Nat.mod_add_mod]
      congr 1
      omega

/-- C7, counterexample to the claim as stated: the `AtomicUsize` counter of
`Compositor::next_id` wraps at `2 ^ 64`, so after `2 ^ 64 + 1` mount calls on
command buffers of one compositor the id `0` has been returned twice — the
sequence of returned ids is not pairwise distinct, so "no id is ever re-used"
does not hold unconditionally. -/
theorem mount_ids_reuse_after_wrap :
    ¬ (Ios.mountIds { counter := 0 } (List.replicate (2 ^ 64 + 1) 0)).Pairwise (· ≠ ·) := by
  intro h
  rw [mountIds_replicate_mod (2 ^ 64 + 1) 0 (Nat.two_pow_pos 64)] at h
  rw [List.pairwise_iff_getElem] at h
  have h2 := h 0 (2 ^ 64)
    (by rw [List.length_map, List.length_range]; exact Nat.succ_pos _)
    (by rw [List.length_map, List.length_range]; exact Nat.lt_succ_self _)
    (Nat.two_pow_pos 64)
  apply h2
  simp only [List.getElem_map, List.getElem_range]
  simp

/-- C7 (amended): each `mount` call on a command buffer returns the shared
counter's current value synchronously and advances the counter by one modulo
`2 ^ 64` (the `AtomicUsize` `fetch_add` wraps on overflow), recording the
Mount command with that id; for every sequence of mount calls during which
the counter does not wrap — at most `2 ^ 64` allocations in total — the
returned ids are strictly increasing, so within any such sequence no id is
ever re-used. -/
theorem mount_ids_fresh_no_wrap (c : Ios.Compositor) (parents : List Nat)
    (h : c.counter + parents.length ≤ 2 ^ 64) :
    (Ios.mountIds c parents).Pairwise (· < ·) ∧
    ∀ (cb : Ios.CommandBuffer) (parentId : Nat),
      (cb.mount c parentId).1 = c.counter ∧
      (cb.mount c parentId).2.1.counter = (c.counter + 1) % 2 ^ 64 ∧
      (cb.mount c parentId).2.2.commands =
        cb.commands ++ [Ios.Cmd.mount c.counter parentId] := by
  refine ⟨?_, fun cb parentId => ⟨rfl, rfl, rfl⟩⟩
  rw [mountIds_nowrap parents c h]
  exact range1_pairwise parents.length c.counter

theorem mount_ids_fresh_no_wrap_witness :
    (({ counter := 5 } : Ios.Compositor).counter + ([7, 8, 9] : List Nat).length ≤ 2 ^ 64) ∧
    (Ios.mountIds { counter := 5 } [7, 8, 9]).Pairwise (· < ·) ∧
    (({ commands := [] } : Ios.CommandBuffer).mount { counter := 5 } 7).1 = 5 :=
  ⟨by decide, (mount_ids_fresh_no_wrap { counter := 5 } [7, 8, 9] (by decide)).1,
    ((mount_ids_fresh_no_wrap { counter := 5 } [7, 8, 9] (by decide)).2 { commands := [] } 7).1⟩

/-- C10: a command buffer obtained from `Compositor::buffer()` starts with an
empty command list; `commit` applies exactly the commands recorded through
that buffer, in recording order, to the compositor's state, and leaves the
buffer's own command list empty — so the commands applied by one buffer's
commit are exactly its own recorded commands and per-pass command counts are
well defined. -/
theorem buffer_empty_commit_exact (c : Ios.Compositor) (cb : Ios.CommandBuffer)
    (state : List Ios.Cmd) :
    (Ios.Compositor.buffer c).commands = [] ∧
    (cb.commit state).1 = state ++ cb.commands ∧
    (cb.commit state).2.commands = [] := by
  exact ⟨rfl, rfl, rfl⟩

/-- C8: dispatching a String element through `rerender` — as the stored
element of the instance being reconciled, or as the root element handed to
`render` — panics (the `unimplemented!` arm) without producing an instance
or recording any command. -/
theorem string_root_panics (fuel : Nat) (inst : Instance) (st : St) (k : Nat)
    (t : String) (h : inst.element = .string k t) :
    Render.rerender (fuel + 1) inst st = .panicked ∧
    ∀ (parent : Option Instance) (cont : Nat),
      Render.render (fuel + 2) parent (.string k t) cont st = .panicked := by
  constructor
  · simp [Render.rerender, h]
  · intro parent cont
    simp [Render.render, Render.rerender, Instance.element]

theorem reaches_string_panics (fuel : Nat) :
    (∀ (inst : Instance) (st : St), reachesString inst.element = true →
      Render.rerender fuel inst st ≠ .noFuel →
      Render.rerender fuel inst st = .panicked) ∧
    (∀ (p : Option Instance) (el : Element) (cont : Nat) (st : St),
      reachesString el = true →
      Render.render fuel p el cont st ≠ .noFuel →
      Render.render fuel p el cont st = .panicked) ∧
    (∀ (inst : Instance) (ch : Element) (st : St), reachesString ch = true →
      Render.rerenderBuiltin fuel inst ch st ≠ .noFuel →
      Render.rerenderBuiltin fuel inst ch st = .panicked) ∧
    (∀ (inst : Instance) (pr : Element) (effs : List Nat) (st : St),
      reachesString pr = true →
      Render.rerenderComponent fuel inst pr effs st ≠ .noFuel →
      Render.rerenderComponent fuel inst pr effs st = .panicked) ∧
    (∀ (inst : Instance) (ch : Element) (st : St), reachesString ch = true →
      Render.rerenderContext fuel inst ch st ≠ .noFuel →
      Render.rerenderContext fuel inst ch st = .panicked) ∧
    (∀ (inst : Instance) (els : List Element) (st : St),
      reachesStringL els = true →
      Render.rerenderFragment fuel inst els st ≠ .noFuel →
      Render.rerenderFragment fuel inst els st = .panicked) ∧
    (∀ (inst : Instance) (edges : List Element) (st : St),
      reachesStringL edges = true →
      Render.rerenderEdges fuel inst edges st ≠ .noFuel →
      Render.rerenderEdges fuel inst edges st = .panicked) ∧
    (∀ (inst : Instance) (memory : List (Nat × Instance)) (keys : List Nat)
      (edges : List Element) (st : St),
      reachesStringL edges = true →
      Render.edgesLoop fuel inst memory keys edges st ≠ .noFuel →
      Render.edgesLoop fuel inst memory keys edges st = .panicked) := by
  induction fuel with
  | zero =>
    exact ⟨fun _ _ _ hn => absurd rfl hn, fun _ _ _ _ _ hn => absurd rfl hn,
      fun _ _ _ _ hn => absurd rfl hn, fun _ _ _ _ _ hn => absurd rfl hn,
      fun _ _ _ _ hn => absurd rfl hn, fun _ _ _ _ hn => absurd rfl hn,
      fun _ _ _ _ hn => absurd rfl hn, fun _ _ _ _ _ _ hn => absurd rfl hn⟩
  | succ n ih =>
    obtain ⟨ihR, ihN, ihB, ihC, ihX, ihF, ihE, ihL⟩ := ih
    refine ⟨?_, ?_, ?_, ?_, ?_, ?_, ?_, ?_⟩
    · intro inst st h hn
      cases hel : inst.element with
      | builtin k r c =>
        rw [hel] at h; simp only [reachesString] at h
        simp only [Render.rerender, hel] at hn ⊢
        exact ihB inst c st h hn
      | component k pr effs =>
        rw [hel] at h; simp only [reachesString] at h
        simp only [Render.rerender, hel] at hn ⊢
        exact ihC inst pr effs st h hn
      | context k c =>
        rw [hel] at h; simp only [reachesString] at h
        simp only [Render.rerender, hel] at hn ⊢
        exact ihX inst c st h hn
      | fragment k els =>
        rw [hel] at h; simp only [reachesString] at h
        simp only [Render.rerender, hel] at hn ⊢
        exact ihF inst els st h hn
      | string k t =>
        simp only [Render.rerender, hel]
    · intro p el cont st h hn
      cases el <;>
        (simp only [Render.render] at hn ⊢; exact ihR _ _ (by simpa using h) hn)
    · intro inst ch st h hn
      simp only [Render.rerenderBuiltin] at hn ⊢
      exact ihE inst [ch] st (by simp [reachesStringL, h]) hn
    · intro inst pr effs st h hn
      simp only [Render.rerenderComponent] at hn ⊢
      cases hres : Render.rerenderEdges n inst [pr] st with
      | ok v =>
        have := ihE inst [pr] st (by simp [reachesStringL, h]) (by simp [hres])
        rw [hres] at this; simp at this
      | panicked => simp only [hres]
      | noFuel => simp only [hres] at hn; exact absurd rfl hn
    · intro inst ch st h hn
      simp only [Render.rerenderContext] at hn ⊢
      exact ihE inst [ch] st (by simp [reachesStringL, h]) hn
    · intro inst els st h hn
      simp only [Render.rerenderFragment] at hn ⊢
      exact ihE inst els st h hn
    · intro inst edges st h hn
      simp only [Render.rerenderEdges] at hn ⊢
      cases hres : Render.edgesLoop n inst inst.memory (Memory.keys inst.memory)
          edges st with
      | ok v =>
        have := ihL inst inst.memory (Memory.keys inst.memory) edges st h
          (by simp [hres])
        rw [hres] at this; simp at this
      | panicked => simp only [hres]
      | noFuel => simp only [hres] at hn; exact absurd rfl hn
    · intro inst memory keys edges st h hn
      cases edges with
      | nil => simp [reachesStringL] at h
      | cons e rest =>
        simp only [reachesStringL, Bool.or_eq_true] at h
        simp only [Render.edgesLoop] at hn ⊢
        cases hme : Memory.edge memory e.key with
        | some existing =>
          simp only [hme] at hn ⊢
          cases hres : Render.rerender n (existing.update e) st with
          | ok v =>
            obtain ⟨ex', st'⟩ := v
            simp only [hres] at hn ⊢
            rcases h with hse | hrest
            · have := ihR (existing.update e) st (by simpa using hse)
                (by simp [hres])
              rw [hres] at this; simp at this
            · exact ihL inst (Memory.replaceEdge memory e.key ex')
                (keys.erase e.key) rest st' hrest hn
          | panicked => simp only [hres]
          | noFuel => simp only [hres] at hn; exact absurd rfl hn
        | none =>
          simp only [hme] at hn ⊢
          cases hres : Render.render n (some inst) e inst.containerId st with
          | ok v =>
            obtain ⟨child, st'⟩ := v
            simp only [hres] at hn ⊢
            rcases h with hse | hrest
            · have := ihN (some inst) e inst.containerId st hse (by simp [hres])
              rw [hres] at this; simp at this
            · exact ihL inst (Memory.addEdge memory e.key child)
                (keys.erase e.key) rest st' hrest hn
          | panicked => simp only [hres]
          | noFuel => simp only [hres] at hn; exact absurd rfl hn

/-- C9: the fail-fast on String elements is not limited to the root of a
reconcile call: if an element tree contains a String element at any position
edge reconciliation reaches (for example inside a Fragment, or as the
children of a Builtin), then a pass over it — a fresh `render` of the
element, or a `rerender` of an instance holding it — panics whenever it does
not run out of fuel: every new child edge goes through `render`, which
unconditionally dispatches through `rerender`, whose String arm is
unimplemented. -/
theorem string_anywhere_panics (fuel : Nat) (p : Option Instance) (el : Element)
    (cont : Nat) (st : St) (inst : Instance) :
    (reachesString el = true → Render.render fuel p el cont st ≠ .noFuel →
      Render.render fuel p el cont st = .panicked) ∧
    (reachesString inst.element = true → Render.rerender fuel inst st ≠ .noFuel →
      Render.rerender fuel inst st = .panicked) :=
  ⟨fun h hn => (reaches_string_panics fuel).2.1 p el cont st h hn,
   fun h hn => (reaches_string_panics fuel).1 inst st h hn⟩

/-- Witness for C9: a String nested under a Builtin inside a Fragment, a
position only edge reconciliation (not the root dispatch) reaches. -/
theorem string_anywhere_panics_witness :
    reachesString (.builtin 0 false (.fragment 1
      [.builtin 2 false (.fragment 3 []), .string 4 "s"])) = true ∧
    Render.render 40 none (.builtin 0 false (.fragment 1
      [.builtin 2 false (.fragment 3 []), .string 4 "s"])) 0
      { counter := 1, trace := [] } = .panicked := by
  refine ⟨by decide, ?_⟩
  exact (string_anywhere_panics 40 none (.builtin 0 false (.fragment 1
      [.builtin 2 false (.fragment 3 []), .string 4 "s"])) 0
      { counter := 1, trace := [] } (.mk (.fragment 0 []) 0 [])).1
    (by decide)
    (by rw [show Render.render 40 none (.builtin 0 false (.fragment 1
      [.builtin 2 false (.fragment 3 []), .string 4 "s"])) 0
      { counter := 1, trace := [] } = .panicked from rfl]; simp)

/-- Witness for C8 at a concrete instance and state. -/
theorem string_root_panics_witness :
    (Instance.mk (.string 0 "x") 0 []).element = .string 0 "x" ∧
    Render.rerender 1 (.mk (.string 0 "x") 0 [])
      { counter := 0, trace := [] } = .panicked :=
  ⟨rfl, (string_root_panics 0 (.mk (.string 0 "x") 0 [])
    { counter := 0, trace := [] } 0 "x" rfl).1⟩

theorem contains_eq_mem_decide (l : List Nat) (a : Nat) :
    l.contains a = decide (a ∈ l) :=
  List.elem_eq_mem a l

theorem contains_false_of_not_mem {l : List Nat} {a : Nat}
    (h : l.contains a = false) : a ∉ l := by
  rw [contains_eq_mem_decide] at h
  simpa using h

theorem nodupKeys_erase {l : List Nat} (a : Nat) (h : nodupKeys l = true) :
    nodupKeys (l.erase a) = true := by
  induction l with
  | nil => simp [List.erase_nil, nodupKeys]
  | cons k rest ih =>
    simp only [nodupKeys, Bool.and_eq_true, Bool.not_eq_true'] at h
    by_cases hk : k = a
    · subst hk
      rw [List.erase_cons_head]
      exact h.2
    · rw [List.erase_cons_tail (by simp [hk])]
      simp only [nodupKeys, Bool.and_eq_true, Bool.not_eq_true']
      refine ⟨?_, ih h.2⟩
      rw [contains_eq_mem_decide]
      have := contains_false_of_not_mem h.1
      simp only [decide_eq_false_iff_not]
      intro hm
      exact this (List.mem_of_mem_erase hm)

theorem erase_eq_filter_of_nodup {l : List Nat} (a : Nat)
    (h : nodupKeys l = true) : l.erase a = l.filter (fun k => !(k == a)) := by
  induction l with
  | nil => simp
  | cons k rest ih =>
    simp only [nodupKeys, Bool.and_eq_true, Bool.not_eq_true'] at h
    by_cases hk : k = a
    · subst hk
      rw [List.erase_cons_head]
      have hrest : rest.filter (fun x => !(x == k)) = rest := by
        apply List.filter_eq_self.mpr
        intro x hx
        have hnm := contains_false_of_not_mem h.1
        simp only [Bool.not_eq_true', beq_eq_false_iff_ne]
        exact fun he => hnm (he ▸ hx)
      simp [List.filter_cons, hrest]
    · have hbeq : (k == a) = false := by simp [hk]
      rw [List.erase_cons_tail (by simp [hk])]
      simp [List.filter_cons, hbeq, ih h.2]

theorem eraseAll_eq_filter (edges : List Element) :
    ∀ (keys : List Nat), nodupKeys keys = true →
      eraseAllKeys keys edges =
        keys.filter (fun k => !(edges.map Element.key).contains k) := by
  induction edges with
  | nil =>
    intro keys _
    simp [eraseAllKeys, List.filter_eq_self]
  | cons e rest ih =>
    intro keys h
    have hstep : eraseAllKeys keys (e :: rest) = eraseAllKeys (keys.erase e.key) rest := rfl
    rw [hstep, ih _ (nodupKeys_erase e.key h), erase_eq_filter_of_nodup e.key h,
      List.filter_filter]
    apply List.filter_congr
    intro k _
    simp only [List.map_cons, List.contains_cons, Bool.not_or]
    cases hke : (k == e.key) <;> simp [hke, Bool.and_comm]

theorem edgesLoop_eq_specLoop (fuel : Nat) :
    ∀ (inst : Instance) (memory : List (Nat × Instance)) (keys : List Nat)
      (edges : List Element) (st : St),
      Render.edgesLoop fuel inst memory keys edges st =
        match specEdgesLoop fuel inst memory edges st with
        | .ok (m, s) => .ok (m, eraseAllKeys keys edges, s)
        | .panicked => .panicked
        | .noFuel => .noFuel := by
  induction fuel with
  | zero => intro inst memory keys edges st; rfl
  | succ n ih =>
    intro inst memory keys edges st
    cases edges with
    | nil =>
      simp [Render.edgesLoop, specEdgesLoop, eraseAllKeys]
    | cons e rest =>
      simp only [Render.edgesLoop, specEdgesLoop]
      cases hme : Memory.edge memory e.key with
      | some existing =>
        simp only [hme]
        cases hres : Render.rerender n (existing.update e) st with
        | ok v =>
          obtain ⟨ex', st'⟩ := v
          simp only [hres, ih]
          rfl
        | panicked => simp only [hres]
        | noFuel => simp only [hres]
      | none =>
        simp only [hme]
        cases hres : Render.render n (some inst) e inst.containerId st with
        | ok v =>
          obtain ⟨child, st'⟩ := v
          simp only [hres, ih]
          rfl
        | panicked => simp only [hres]
        | noFuel => simp only [hres]

theorem applyEffects_trace (labels : List Nat) :
    ∀ (st : St), applyEffects labels st =
      { counter := st.counter, trace := st.trace ++ labels.map Event.effectRun } := by
  induction labels with
  | nil => intro st; simp [applyEffects]
  | cons l rest ih =>
    intro st
    show applyEffects rest { st with trace := st.trace ++ [Event.effectRun l] } = _
    rw [ih]
    simp

mutual

theorem unmountAux_trace (inst : Instance) (st : St) :
    Render.unmountAux inst st =
      { counter := st.counter,
        trace := st.trace ++ (removedBuiltinIds inst).map Event.unmount } := by
  cases inst with
  | mk el cont mem =>
    simp only [Render.unmountAux]
    rw [unmountEdges_trace mem st]
    cases el <;> simp [St.unmountCmd, removedBuiltinIds]

theorem unmountEdges_trace (mem : List (Nat × Instance)) (st : St) :
    Render.unmountEdges mem st =
      { counter := st.counter,
        trace := st.trace ++ (removedBuiltinIdsL mem).map Event.unmount } := by
  cases mem with
  | nil => simp [Render.unmountEdges, removedBuiltinIdsL]
  | cons p rest =>
    simp only [Render.unmountEdges]
    rw [unmountAux_trace p.2 st, unmountEdges_trace rest _]
    simp [removedBuiltinIdsL]

end

theorem unmount_trace (inst : Instance) (st : St) :
    Render.unmount inst st =
      { counter := st.counter,
        trace := st.trace ++ (removedBuiltinIds inst).map Event.unmount } :=
  unmountAux_trace inst st

theorem sweepEdges_trace (keys : List Nat) :
    ∀ (mem : List (Nat × Instance)) (st : St), ∃ Δ,
      (Render.sweepEdges keys mem st).2.trace = st.trace ++ Δ := by
  induction keys with
  | nil => intro mem st; exact ⟨[], by simp [Render.sweepEdges]⟩
  | cons k rest ih =>
    intro mem st
    simp only [Render.sweepEdges]
    cases hre : Memory.removeEdge mem k with
    | mk fst snd =>
      cases fst with
      | some inst =>
        obtain ⟨Δ, hΔ⟩ := ih snd (Render.unmount inst st)
        refine ⟨(removedBuiltinIds inst).map Event.unmount ++ Δ, ?_⟩
        rw [hΔ, unmount_trace]
        simp
      | none =>
        obtain ⟨Δ, hΔ⟩ := ih snd st
        exact ⟨Δ, hΔ⟩

theorem pass_trace_extends (fuel : Nat) :
    (∀ (inst : Instance) (st : St) (r : Instance × St),
      Render.rerender fuel inst st = .ok r →
      ∃ Δ, r.2.trace = st.trace ++ Δ) ∧
    (∀ (p : Option Instance) (el : Element) (cont : Nat) (st : St)
      (r : Instance × St),
      Render.render fuel p el cont st = .ok r →
      ∃ Δ, r.2.trace = st.trace ++ Δ) ∧
    (∀ (inst : Instance) (ch : Element) (st : St) (r : Instance × St),
      Render.rerenderBuiltin fuel inst ch st = .ok r →
      ∃ Δ, r.2.trace = st.trace ++ Δ) ∧
    (∀ (inst : Instance) (pr : Element) (effs : List Nat) (st : St)
      (r : Instance × St),
      Render.rerenderComponent fuel inst pr effs st = .ok r →
      ∃ Δ, r.2.trace = st.trace ++ Δ) ∧
    (∀ (inst : Instance) (ch : Element) (st : St) (r : Instance × St),
      Render.rerenderContext fuel inst ch st = .ok r →
      ∃ Δ, r.2.trace = st.trace ++ Δ) ∧
    (∀ (inst : Instance) (els : List Element) (st : St) (r : Instance × St),
      Render.rerenderFragment fuel inst els st = .ok r →
      ∃ Δ, r.2.trace = st.trace ++ Δ) ∧
    (∀ (inst : Instance) (edges : List Element) (st : St) (r : Instance × St),
      Render.rerenderEdges fuel inst edges st = .ok r →
      ∃ Δ, r.2.trace = st.trace ++ Δ) ∧
    (∀ (inst : Instance) (memory : List (Nat × Instance)) (keys : List Nat)
      (edges : List Element) (st : St)
      (r : List (Nat × Instance) × List Nat × St),
      Render.edgesLoop fuel inst memory keys edges st = .ok r →
      ∃ Δ, r.2.2.trace = st.trace ++ Δ) := by
  induction fuel with
  | zero =>
    refine ⟨fun _ _ _ h => ?_, fun _ _ _ _ _ h => ?_, fun _ _ _ _ h => ?_,
      fun _ _ _ _ _ h => ?_, fun _ _ _ _ h => ?_, fun _ _ _ _ h => ?_,
      fun _ _ _ _ h => ?_, fun _ _ _ _ _ _ h => ?_⟩ <;> exact nomatch h
  | succ n ih =>
    obtain ⟨ihR, ihN, ihB, ihC, ihX, ihF, ihE, ihL⟩ := ih
    refine ⟨?_, ?_, ?_, ?_, ?_, ?_, ?_, ?_⟩
    · intro inst st r h
      cases hel : inst.element with
      | builtin k hr c =>
        simp only [Render.rerender, hel] at h
        exact ihB inst c st r h
      | component k pr effs =>
        simp only [Render.rerender, hel] at h
        exact ihC inst pr effs st r h
      | context k c =>
        simp only [Render.rerender, hel] at h
        exact ihX inst c st r h
      | fragment k els =>
        simp only [Render.rerender, hel] at h
        exact ihF inst els st r h
      | string k t =>
        simp only [Render.rerender, hel] at h
        exact nomatch h
    · intro p el cont st r h
      cases el with
      | builtin k hr c =>
        cases hr with
        | false =>
          simp only [Render.render, St.mount, Bool.false_eq_true, if_false] at h
          obtain ⟨Δ, hΔ⟩ := ihR _ _ r h
          refine ⟨Event.mount st.counter cont :: Δ, ?_⟩
          rw [hΔ]
          simp
        | true =>
          simp only [Render.render, St.mount, if_true] at h
          obtain ⟨Δ, hΔ⟩ := ihR _ _ r h
          refine ⟨Event.mount st.counter cont :: Event.refSet st.counter :: Δ, ?_⟩
          rw [hΔ]
          simp
      | component k pr effs =>
        simp only [Render.render] at h
        exact ihR _ _ r h
      | context k c =>
        simp only [Render.render] at h
        exact ihR _ _ r h
      | fragment k els =>
        simp only [Render.render] at h
        exact ihR _ _ r h
      | string k t =>
        simp only [Render.render] at h
        exact ihR _ _ r h
    · intro inst ch st r h
      simp only [Render.rerenderBuiltin] at h
      exact ihE inst [ch] st r h
    · intro inst pr effs st r h
      simp only [Render.rerenderComponent] at h
      cases hres : Render.rerenderEdges n inst [pr] st with
      | ok v =>
        rw [hres] at h
        obtain ⟨i1, s1⟩ := v
        obtain ⟨Δ, hΔ⟩ := ihE inst [pr] st (i1, s1) hres
        simp only at hΔ
        cases h
        refine ⟨Δ ++ effs.map Event.effectRun, ?_⟩
        simp only [applyEffects_trace, hΔ]
        simp
      | panicked => rw [hres] at h; exact nomatch h
      | noFuel => rw [hres] at h; exact nomatch h
    · intro inst ch st r h
      simp only [Render.rerenderContext] at h
      exact ihE inst [ch] st r h
    · intro inst els st r h
      simp only [Render.rerenderFragment] at h
      exact ihE inst els st r h
    · intro inst edges st r h
      simp only [Render.rerenderEdges] at h
      cases hres : Render.edgesLoop n inst inst.memory (Memory.keys inst.memory)
          edges st with
      | ok v =>
        rw [hres] at h
        obtain ⟨m, ks, s⟩ := v
        obtain ⟨Δ, hΔ⟩ := ihL inst inst.memory (Memory.keys inst.memory) edges st
          (m, ks, s) hres
        simp only at hΔ
        obtain ⟨Δ2, hΔ2⟩ := sweepEdges_trace ks m s
        cases h
        refine ⟨Δ ++ Δ2, ?_⟩
        simp only [hΔ2, hΔ]
        simp
      | panicked => rw [hres] at h; exact nomatch h
      | noFuel => rw [hres] at h; exact nomatch h
    · intro inst memory keys edges st r h
      cases edges with
      | nil =>
        simp only [Render.edgesLoop] at h
        cases h
        exact ⟨[], by simp⟩
      | cons e rest =>
        simp only [Render.edgesLoop] at h
        cases hme : Memory.edge memory e.key with
        | some existing =>
          simp only [hme] at h
          cases hres : Render.rerender n (existing.update e) st with
          | ok v =>
            obtain ⟨ex2, st2⟩ := v
            simp only [hres] at h
            obtain ⟨Δ1, hΔ1⟩ := ihR (existing.update e) st (ex2, st2) hres
            simp only at hΔ1
            obtain ⟨Δ2, hΔ2⟩ := ihL inst (Memory.replaceEdge memory e.key ex2)
              (keys.erase e.key) rest st2 r h
            refine ⟨Δ1 ++ Δ2, ?_⟩
            rw [hΔ2, hΔ1]
            simp
          | panicked => simp only [hres] at h; exact nomatch h
          | noFuel => simp only [hres] at h; exact nomatch h
        | none =>
          simp only [hme] at h
          cases hres : Render.render n (some inst) e inst.containerId st with
          | ok v =>
            obtain ⟨child, st2⟩ := v
            simp only [hres] at h
            obtain ⟨Δ1, hΔ1⟩ := ihN (some inst) e inst.containerId st
              (child, st2) hres
            simp only at hΔ1
            obtain ⟨Δ2, hΔ2⟩ := ihL inst (Memory.addEdge memory e.key child)
              (keys.erase e.key) rest st2 r h
            refine ⟨Δ1 ++ Δ2, ?_⟩
            rw [hΔ2, hΔ1]
            simp
          | panicked => simp only [hres] at h; exact nomatch h
          | noFuel => simp only [hres] at h; exact nomatch h

/-- C5: for a Component instance, every effect its Manager accumulated during
the component function's invocation executes only after edge reconciliation
of the produced child element — and with it everything recursively reachable
from the instance in this pass — has completed: the pass state `st₁` after
the full reconciliation exists, and the effect events are appended strictly
after every event `Δ` of that reconciliation (a descendant component's effect
events lie inside `Δ`, so a child's effects run before its ancestor's).
`Renderer::rerender` commits the buffer only after the pass returns, so all
of this precedes the commit. -/
theorem component_effects_after_reconcile (fuel : Nat) (inst : Instance)
    (st : St) (k : Nat) (produced : Element) (effectLabels : List Nat)
    (inst' : Instance) (st' : St)
    (hel : inst.element = .component k produced effectLabels)
    (hok : Render.rerender (fuel + 2) inst st = .ok (inst', st')) :
    ∃ st₁ Δ, Render.rerenderEdges fuel inst [produced] st = .ok (inst', st₁) ∧
      st' = applyEffects effectLabels st₁ ∧
      st₁.trace = st.trace ++ Δ ∧
      st'.trace = st.trace ++ Δ ++ effectLabels.map Event.effectRun := by
  simp only [Render.rerender, hel] at hok
  simp only [Render.rerenderComponent] at hok
  cases hres : Render.rerenderEdges fuel inst [produced] st with
  | ok v =>
    obtain ⟨i1, s1⟩ := v
    simp only [hres, RRes.ok.injEq, Prod.mk.injEq] at hok
    obtain ⟨h1, h2⟩ := hok
    obtain ⟨Δ, hΔ⟩ := (pass_trace_extends fuel).2.2.2.2.2.2.1 inst [produced] st
      (i1, s1) hres
    simp only at hΔ
    subst h1
    refine ⟨s1, Δ, rfl, h2.symm, hΔ, ?_⟩
    rw [← h2, applyEffects_trace, hΔ]
  | panicked => simp only [hres] at hok; exact nomatch hok
  | noFuel => simp only [hres] at hok; exact nomatch hok

/-- Witness for C5: component P (effect label 22) produces component C
(effect label 11); the pass records C's effect event before P's. -/
theorem component_effects_after_reconcile_witness :
    (Instance.mk (.component 0 (.component 1 (.fragment 2 []) [11]) [22]) 0 []).element
      = .component 0 (.component 1 (.fragment 2 []) [11]) [22] ∧
    ∃ st₁ Δ,
      Render.rerenderEdges 28
        (.mk (.component 0 (.component 1 (.fragment 2 []) [11]) [22]) 0 [])
        [.component 1 (.fragment 2 []) [11]]
        { counter := 5, trace := [] } =
        .ok (.mk (.component 0 (.component 1 (.fragment 2 []) [11]) [22]) 0
          [(1, .mk (.component 1 (.fragment 2 []) [11]) 0
            [(2, .mk (.fragment 2 []) 0 [])])], st₁) ∧
      ({ counter := 5, trace := [Event.effectRun 11, Event.effectRun 22] } : St)
        = applyEffects [22] st₁ ∧
      st₁.trace = ([] : List Event) ++ Δ ∧
      ({ counter := 5, trace := [Event.effectRun 11, Event.effectRun 22] } : St).trace
        = ([] : List Event) ++ Δ ++ ([22] : List Nat).map Event.effectRun :=
  ⟨rfl,
   component_effects_after_reconcile 28
     (.mk (.component 0 (.component 1 (.fragment 2 []) [11]) [22]) 0 [])
     { counter := 5, trace := [] } 0 (.component 1 (.fragment 2 []) [11]) [22]
     (.mk (.component 0 (.component 1 (.fragment 2 []) [11]) [22]) 0
       [(1, .mk (.component 1 (.fragment 2 []) [11]) 0
         [(2, .mk (.fragment 2 []) 0 [])])])
     { counter := 5, trace := [Event.effectRun 11, Event.effectRun 22] }
     rfl rfl⟩

theorem uniqueKeysL_mem {es : List Element} (h : uniqueKeysL es = true) :
    ∀ e ∈ es, uniqueKeysE e = true := by
  induction es with
  | nil => intro e he; cases he
  | cons a rest ih =>
    simp only [uniqueKeysL, Bool.and_eq_true] at h
    intro e he
    rcases List.mem_cons.mp he with h1 | h1
    · exact h1 ▸ h.1
    · exact ih h.2 e h1

theorem edge_some_mem {m : List (Nat × Instance)} {k : Nat} {i : Instance}
    (h : Memory.edge m k = some i) : (k, i) ∈ m := by
  induction m with
  | nil => cases h
  | cons p rest ih =>
    rw [Memory.edge] at h
    by_cases hp : p.1 = k
    · rw [if_pos hp] at h
      cases h
      have hpk : (k, p.2) = p := by
        cases p
        simp only at hp ⊢
        rw [hp]
      rw [hpk]
      exact List.mem_cons_self _ _
    · rw [if_neg hp] at h
      exact List.mem_cons_of_mem p (ih h)

theorem eraseAllKeys_nil (edges : List Element) : eraseAllKeys [] edges = [] := by
  induction edges with
  | nil => rfl
  | cons e rest ih =>
    show eraseAllKeys (List.erase [] e.key) rest = []
    rw [List.erase_nil]
    exact ih

theorem edgesLoop_ok_keys {fuel : Nat} {inst : Instance}
    {memory m' : List (Nat × Instance)} {keys k' : List Nat}
    {edges : List Element} {st s' : St}
    (h : Render.edgesLoop fuel inst memory keys edges st = .ok (m', k', s')) :
    k' = eraseAllKeys keys edges := by
  rw [edgesLoop_eq_specLoop] at h
  cases hres : specEdgesLoop fuel inst memory edges st with
  | ok v =>
    obtain ⟨m, s⟩ := v
    rw [hres] at h
    simp only [RRes.ok.injEq, Prod.mk.injEq] at h
    exact h.2.1.symm
  | panicked => rw [hres] at h; exact nomatch h
  | noFuel => rw [hres] at h; exact nomatch h

theorem rerenderEdges_ok_shape {fuel : Nat} {inst : Instance}
    {edges : List Element} {st : St} {inst' : Instance} {st' : St}
    (h : Render.rerenderEdges fuel inst edges st = .ok (inst', st')) :
    inst'.element = inst.element ∧ inst'.containerId = inst.containerId := by
  cases fuel with
  | zero => exact nomatch h
  | succ n =>
    simp only [Render.rerenderEdges] at h
    cases hres : Render.edgesLoop n inst inst.memory (Memory.keys inst.memory)
        edges st with
    | ok v =>
      obtain ⟨m, ks, s⟩ := v
      simp only [hres, RRes.ok.injEq, Prod.mk.injEq] at h
      obtain ⟨h1, _⟩ := h
      rw [← h1]
      simp
    | panicked => simp only [hres] at h; exact nomatch h
    | noFuel => simp only [hres] at h; exact nomatch h

theorem rerender_ok_shape {fuel : Nat} {inst : Instance} {st : St}
    {inst' : Instance} {st' : St}
    (h : Render.rerender fuel inst st = .ok (inst', st')) :
    inst'.element = inst.element ∧ inst'.containerId = inst.containerId := by
  cases fuel with
  | zero => exact nomatch h
  | succ n =>
    cases hel : inst.element with
    | builtin k r c =>
      simp only [Render.rerender, hel] at h
      cases n with
      | zero => exact nomatch h
      | succ m =>
        simp only [Render.rerenderBuiltin] at h
        have hs := rerenderEdges_ok_shape h
        exact ⟨hs.1.trans hel, hs.2⟩
    | component k pr effs =>
      simp only [Render.rerender, hel] at h
      cases n with
      | zero => exact nomatch h
      | succ m =>
        simp only [Render.rerenderComponent] at h
        cases hres : Render.rerenderEdges m inst [pr] st with
        | ok v =>
          obtain ⟨i1, s1⟩ := v
          simp only [hres, RRes.ok.injEq, Prod.mk.injEq] at h
          obtain ⟨h1, _⟩ := h
          rw [← h1]
          have hs := rerenderEdges_ok_shape hres
          exact ⟨hs.1.trans hel, hs.2⟩
        | panicked => simp only [hres] at h; exact nomatch h
        | noFuel => simp only [hres] at h; exact nomatch h
    | context k c =>
      simp only [Render.rerender, hel] at h
      cases n with
      | zero => exact nomatch h
      | succ m =>
        simp only [Render.rerenderContext] at h
        have hs := rerenderEdges_ok_shape h
        exact ⟨hs.1.trans hel, hs.2⟩
    | fragment k els =>
      simp only [Render.rerender, hel] at h
      cases n with
      | zero => exact nomatch h
      | succ m =>
        simp only [Render.rerenderFragment] at h
        have hs := rerenderEdges_ok_shape h
        exact ⟨hs.1.trans hel, hs.2⟩
    | string k t =>
      simp only [Render.rerender, hel] at h
      exact nomatch h

theorem contOk_core (fuel : Nat) :
    (∀ (p : Option Instance) (el : Element) (cont : Nat) (st : St)
      (inst' : Instance) (st' : St), uniqueKeysE el = true →
      Render.render fuel p el cont st = .ok (inst', st') →
      ContOk cont inst') ∧
    (∀ (inst : Instance) (st : St) (inst' : Instance) (st' : St),
      inst.memory = [] → uniqueKeysE inst.element = true →
      Render.rerender fuel inst st = .ok (inst', st') →
      ∀ q ∈ inst'.memory, ContOk inst.containerId q.2) ∧
    (∀ (inst : Instance) (ch : Element) (st : St) (inst' : Instance) (st' : St),
      inst.memory = [] → uniqueKeysE ch = true →
      Render.rerenderBuiltin fuel inst ch st = .ok (inst', st') →
      ∀ q ∈ inst'.memory, ContOk inst.containerId q.2) ∧
    (∀ (inst : Instance) (pr : Element) (effs : List Nat) (st : St)
      (inst' : Instance) (st' : St),
      inst.memory = [] → uniqueKeysE pr = true →
      Render.rerenderComponent fuel inst pr effs st = .ok (inst', st') →
      ∀ q ∈ inst'.memory, ContOk inst.containerId q.2) ∧
    (∀ (inst : Instance) (ch : Element) (st : St) (inst' : Instance) (st' : St),
      inst.memory = [] → uniqueKeysE ch = true →
      Render.rerenderContext fuel inst ch st = .ok (inst', st') →
      ∀ q ∈ inst'.memory, ContOk inst.containerId q.2) ∧
    (∀ (inst : Instance) (els : List Element) (st : St)
      (inst' : Instance) (st' : St),
      inst.memory = [] → nodupKeys (els.map Element.key) = true →
      (∀ e ∈ els, uniqueKeysE e = true) →
      Render.rerenderFragment fuel inst els st = .ok (inst', st') →
      ∀ q ∈ inst'.memory, ContOk inst.containerId q.2) ∧
    (∀ (inst : Instance) (edges : List Element) (st : St)
      (inst' : Instance) (st' : St),
      inst.memory = [] → nodupKeys (edges.map Element.key) = true →
      (∀ e ∈ edges, uniqueKeysE e = true) →
      Render.rerenderEdges fuel inst edges st = .ok (inst', st') →
      ∀ q ∈ inst'.memory, ContOk inst.containerId q.2) ∧
    (∀ (inst : Instance) (memory : List (Nat × Instance)) (keys : List Nat)
      (edges : List Element) (st : St) (m' : List (Nat × Instance))
      (k' : List Nat) (st' : St),
      (∀ q ∈ memory, ContOk inst.containerId q.2) →
      (∀ q ∈ memory, q.1 ∉ edges.map Element.key) →
      nodupKeys (edges.map Element.key) = true →
      (∀ e ∈ edges, uniqueKeysE e = true) →
      Render.edgesLoop fuel inst memory keys edges st = .ok (m', k', st') →
      ∀ q ∈ m', ContOk inst.containerId q.2) := by
  induction fuel with
  | zero =>
    refine ⟨fun _ _ _ _ _ _ _ h => ?_, fun _ _ _ _ _ _ h => ?_,
      fun _ _ _ _ _ _ _ h => ?_, fun _ _ _ _ _ _ _ _ h => ?_,
      fun _ _ _ _ _ _ _ h => ?_, fun _ _ _ _ _ _ _ _ h => ?_,
      fun _ _ _ _ _ _ _ _ h => ?_,
      fun _ _ _ _ _ _ _ _ _ _ _ _ h => ?_⟩ <;> exact nomatch h
  | succ n ih =>
    obtain ⟨ihN, ihR, ihB, ihC, ihX, ihF, ihE, ihL⟩ := ih
    refine ⟨?_, ?_, ?_, ?_, ?_, ?_, ?_, ?_⟩
    · intro p el cont st inst' st' hu h
      cases el with
      | builtin k r c =>
        simp only [Render.render] at h
        have hshape := rerender_ok_shape h
        have hchildren := ihR _ _ _ _ (by simp) (by simpa using hu) h
        clear h
        cases inst' with
        | mk el2 c2 mem2 =>
          simp only [Instance.element_mk, Instance.containerId_mk]
            at hshape hchildren
          refine ContOk.intro cont el2 c2 mem2 ?_ ?_
          · intro hb
            rw [hshape.1] at hb
            simp [Element.isBuiltin] at hb
          · intro q hq
            rw [hshape.2]
            exact hchildren q hq
      | component k pr effs =>
        simp only [Render.render] at h
        have hshape := rerender_ok_shape h
        have hchildren := ihR _ _ _ _ (by simp) (by simpa using hu) h
        clear h
        cases inst' with
        | mk el2 c2 mem2 =>
          simp only [Instance.element_mk, Instance.containerId_mk]
            at hshape hchildren
          refine ContOk.intro cont el2 c2 mem2 (fun _ => hshape.2) ?_
          intro q hq
          rw [hshape.2]
          exact hchildren q hq
      | context k c =>
        simp only [Render.render] at h
        have hshape := rerender_ok_shape h
        have hchildren := ihR _ _ _ _ (by simp) (by simpa using hu) h
        clear h
        cases inst' with
        | mk el2 c2 mem2 =>
          simp only [Instance.element_mk, Instance.containerId_mk]
            at hshape hchildren
          refine ContOk.intro cont el2 c2 mem2 (fun _ => hshape.2) ?_
          intro q hq
          rw [hshape.2]
          exact hchildren q hq
      | fragment k els =>
        simp only [Render.render] at h
        have hshape := rerender_ok_shape h
        have hchildren := ihR _ _ _ _ (by simp) (by simpa using hu) h
        clear h
        cases inst' with
        | mk el2 c2 mem2 =>
          simp only [Instance.element_mk, Instance.containerId_mk]
            at hshape hchildren
          refine ContOk.intro cont el2 c2 mem2 (fun _ => hshape.2) ?_
          intro q hq
          rw [hshape.2]
          exact hchildren q hq
      | string k t =>
        simp only [Render.render] at h
        cases n with
        | zero => exact nomatch h
        | succ m =>
          simp only [Render.rerender, Instance.element_mk] at h
          exact nomatch h
    · intro inst st inst' st' hmem hu h
      cases hel : inst.element with
      | builtin k r c =>
        simp only [Render.rerender, hel] at h
        rw [hel] at hu
        exact ihB inst c st inst' st' hmem (by simpa [uniqueKeysE] using hu) h
      | component k pr effs =>
        simp only [Render.rerender, hel] at h
        rw [hel] at hu
        exact ihC inst pr effs st inst' st' hmem
          (by simpa [uniqueKeysE] using hu) h
      | context k c =>
        simp only [Render.rerender, hel] at h
        rw [hel] at hu
        exact ihX inst c st inst' st' hmem (by simpa [uniqueKeysE] using hu) h
      | fragment k els =>
        simp only [Render.rerender, hel] at h
        rw [hel] at hu
        simp only [uniqueKeysE, Bool.and_eq_true] at hu
        exact ihF inst els st inst' st' hmem hu.1 (uniqueKeysL_mem hu.2) h
      | string k t =>
        simp only [Render.rerender, hel] at h
        exact nomatch h
    · intro inst ch st inst' st' hmem hu h
      simp only [Render.rerenderBuiltin] at h
      exact ihE inst [ch] st inst' st' hmem (by simp [nodupKeys])
        (by intro e he; rcases List.mem_singleton.mp he with rfl; exact hu) h
    · intro inst pr effs st inst' st' hmem hu h
      simp only [Render.rerenderComponent] at h
      cases hres : Render.rerenderEdges n inst [pr] st with
      | ok v =>
        obtain ⟨i1, s1⟩ := v
        simp only [hres, RRes.ok.injEq, Prod.mk.injEq] at h
        obtain ⟨h1, _⟩ := h
        rw [← h1]
        exact ihE inst [pr] st i1 s1 hmem (by simp [nodupKeys])
          (by intro e he; rcases List.mem_singleton.mp he with rfl; exact hu) hres
      | panicked => simp only [hres] at h; exact nomatch h
      | noFuel => simp only [hres] at h; exact nomatch h
    · intro inst ch st inst' st' hmem hu h
      simp only [Render.rerenderContext] at h
      exact ihE inst [ch] st inst' st' hmem (by simp [nodupKeys])
        (by intro e he; rcases List.mem_singleton.mp he with rfl; exact hu) h
    · intro inst els st inst' st' hmem hnd hu h
      simp only [Render.rerenderFragment] at h
      exact ihE inst els st inst' st' hmem hnd hu h
    · intro inst edges st inst' st' hmem hnd hu h
      simp only [Render.rerenderEdges] at h
      cases hres : Render.edgesLoop n inst inst.memory (Memory.keys inst.memory)
          edges st with
      | ok v =>
        obtain ⟨m, ks, s⟩ := v
        have hks : ks = [] := by
          rw [edgesLoop_ok_keys hres, hmem]
          exact eraseAllKeys_nil edges
        subst hks
        simp only [hres, Render.sweepEdges, RRes.ok.injEq, Prod.mk.injEq] at h
        obtain ⟨h1, _⟩ := h
        rw [← h1]
        simp only [Instance.memory_mk]
        refine ihL inst inst.memory (Memory.keys inst.memory) edges st m [] s
          ?_ ?_ hnd hu hres
        · rw [hmem]; intro q hq; cases hq
        · rw [hmem]; intro q hq; cases hq
      | panicked => simp only [hres] at h; exact nomatch h
      | noFuel => simp only [hres] at h; exact nomatch h
    · intro inst memory keys edges st m' k' st' hcont hdisj hnd hu h
      cases edges with
      | nil =>
        simp only [Render.edgesLoop, RRes.ok.injEq, Prod.mk.injEq] at h
        obtain ⟨h1, _⟩ := h
        rw [← h1]
        exact hcont
      | cons e rest =>
        simp only [Render.edgesLoop] at h
        cases hme : Memory.edge memory e.key with
        | some existing =>
          exfalso
          have := hdisj (e.key, existing) (edge_some_mem hme)
          simp at this
        | none =>
          simp only [hme] at h
          cases hres : Render.render n (some inst) e inst.containerId st with
          | ok v =>
            obtain ⟨child, st2⟩ := v
            simp only [hres] at h
            have hchild : ContOk inst.containerId child :=
              ihN (some inst) e inst.containerId st child st2
                (hu e (List.mem_cons_self e rest)) hres
            simp only [List.map_cons, nodupKeys, Bool.and_eq_true,
              Bool.not_eq_true'] at hnd
            refine ihL inst (Memory.addEdge memory e.key child)
              (keys.erase e.key) rest st2 m' k' st' ?_ ?_ hnd.2
              (fun x hx => hu x (List.mem_cons_of_mem e hx)) h
            · intro q hq
              rcases List.mem_append.mp hq with h1 | h1
              · exact hcont q h1
              · rcases List.mem_singleton.mp h1 with rfl
                exact hchild
            · intro q hq
              rcases List.mem_append.mp hq with h1 | h1
              · have := hdisj q h1
                simp only [List.map_cons, List.mem_cons] at this
                intro hx
                exact this (Or.inr hx)
              · rcases List.mem_singleton.mp h1 with rfl
                exact contains_false_of_not_mem hnd.1
          | panicked => simp only [hres] at h; exact nomatch h
          | noFuel => simp only [hres] at h; exact nomatch h

theorem countMount_append (a b : List Event) :
    countMount (a ++ b) = countMount a + countMount b := by
  simp [countMount, List.filter_append]

theorem countMount_effectRuns (l : List Nat) :
    countMount (l.map Event.effectRun) = 0 := by
  induction l with
  | nil => rfl
  | cons x rest ih => simp [countMount, List.filter_cons, Event.isMount]

theorem countMount_unmounts (l : List Nat) :
    countMount (l.map Event.unmount) = 0 := by
  induction l with
  | nil => rfl
  | cons x rest ih => simp [countMount, List.filter_cons, Event.isMount]

theorem sweep_countMount (keys : List Nat) :
    ∀ (mem : List (Nat × Instance)) (st : St),
      countMount (Render.sweepEdges keys mem st).2.trace = countMount st.trace := by
  induction keys with
  | nil => intro mem st; rfl
  | cons k rest ih =>
    intro mem st
    simp only [Render.sweepEdges]
    cases hre : Memory.removeEdge mem k with
    | mk fst snd =>
      cases fst with
      | some inst =>
        rw [ih snd (Render.unmount inst st), unmount_trace]
        simp [countMount_append, countMount_unmounts]
      | none => exact ih snd st

theorem edge_replaceEdge_ne {m : List (Nat × Instance)} {k q : Nat}
    (i : Instance) (h : q ≠ k) :
    Memory.edge (Memory.replaceEdge m k i) q = Memory.edge m q := by
  induction m with
  | nil => rfl
  | cons p rest ih =>
    simp only [Memory.replaceEdge]
    by_cases hp : p.1 = k
    · rw [if_pos hp]
      simp only [Memory.edge]
      rw [if_neg (by omega), if_neg (by omega)]
    · rw [if_neg hp]
      simp only [Memory.edge]
      by_cases hq : p.1 = q
      · rw [if_pos hq, if_pos hq]
      · rw [if_neg hq, if_neg hq]
        exact ih

theorem edge_addEdge_ne {m : List (Nat × Instance)} {k q : Nat}
    (i : Instance) (h : q ≠ k) :
    Memory.edge (Memory.addEdge m k i) q = Memory.edge m q := by
  induction m with
  | nil =>
    simp only [Memory.addEdge, List.nil_append, Memory.edge]
    rw [if_neg (by omega)]
  | cons p rest ih =>
    simp only [Memory.addEdge, List.cons_append, Memory.edge]
    by_cases hq : p.1 = q
    · rw [if_pos hq, if_pos hq]
    · rw [if_neg hq, if_neg hq]
      exact ih

theorem key_ne_of_nodup_head {e : Element} {rest : List Element}
    (hnd : nodupKeys ((e :: rest).map Element.key) = true) :
    ∀ e' ∈ rest, e'.key ≠ e.key := by
  simp only [List.map_cons, nodupKeys, Bool.and_eq_true, Bool.not_eq_true'] at hnd
  intro e' he' hx
  exact contains_false_of_not_mem hnd.1 (hx ▸ List.mem_map_of_mem Element.key he')

theorem specMountsLoop_fresh (es : List Element) :
    specMountsLoop [] es = elemBuiltinsL es := by
  induction es with
  | nil => simp [specMountsLoop, elemBuiltinsL]
  | cons e rest ih =>
    rw [specMountsLoop]
    simp only [Memory.edge]
    rw [ih]
    rfl

theorem mount_count_core (fuel : Nat) :
    (∀ (p : Option Instance) (el : Element) (cont : Nat) (st : St)
      (inst' : Instance) (st' : St), uniqueKeysE el = true →
      Render.render fuel p el cont st = .ok (inst', st') →
      countMount st'.trace = countMount st.trace + elemBuiltins el) ∧
    (∀ (inst : Instance) (st : St) (inst' : Instance) (st' : St),
      uniqueKeysE inst.element = true →
      Render.rerender fuel inst st = .ok (inst', st') →
      countMount st'.trace =
        countMount st.trace + specMounts inst.element inst.memory) ∧
    (∀ (inst : Instance) (ch : Element) (st : St) (inst' : Instance) (st' : St),
      uniqueKeysE ch = true →
      Render.rerenderBuiltin fuel inst ch st = .ok (inst', st') →
      countMount st'.trace =
        countMount st.trace + specMountsLoop inst.memory [ch]) ∧
    (∀ (inst : Instance) (pr : Element) (effs : List Nat) (st : St)
      (inst' : Instance) (st' : St), uniqueKeysE pr = true →
      Render.rerenderComponent fuel inst pr effs st = .ok (inst', st') →
      countMount st'.trace =
        countMount st.trace + specMountsLoop inst.memory [pr]) ∧
    (∀ (inst : Instance) (ch : Element) (st : St) (inst' : Instance) (st' : St),
      uniqueKeysE ch = true →
      Render.rerenderContext fuel inst ch st = .ok (inst', st') →
      countMount st'.trace =
        countMount st.trace + specMountsLoop inst.memory [ch]) ∧
    (∀ (inst : Instance) (els : List Element) (st : St)
      (inst' : Instance) (st' : St),
      nodupKeys (els.map Element.key) = true →
      (∀ e ∈ els, uniqueKeysE e = true) →
      Render.rerenderFragment fuel inst els st = .ok (inst', st') →
      countMount st'.trace =
        countMount st.trace + specMountsLoop inst.memory els) ∧
    (∀ (inst : Instance) (edges : List Element) (st : St)
      (inst' : Instance) (st' : St),
      nodupKeys (edges.map Element.key) = true →
      (∀ e ∈ edges, uniqueKeysE e = true) →
      Render.rerenderEdges fuel inst edges st = .ok (inst', st') →
      countMount st'.trace =
        countMount st.trace + specMountsLoop inst.memory edges) ∧
    (∀ (inst : Instance) (memory m0 : List (Nat × Instance)) (keys : List Nat)
      (edges : List Element) (st : St) (m' : List (Nat × Instance))
      (k' : List Nat) (st' : St),
      nodupKeys (edges.map Element.key) = true →
      (∀ e ∈ edges, uniqueKeysE e = true) →
      (∀ e ∈ edges, Memory.edge memory e.key = Memory.edge m0 e.key) →
      Render.edgesLoop fuel inst memory keys edges st = .ok (m', k', st') →
      countMount st'.trace = countMount st.trace + specMountsLoop m0 edges) := by
  induction fuel with
  | zero =>
    refine ⟨fun _ _ _ _ _ _ _ h => ?_, fun _ _ _ _ _ h => ?_,
      fun _ _ _ _ _ _ h => ?_, fun _ _ _ _ _ _ _ h => ?_,
      fun _ _ _ _ _ _ h => ?_, fun _ _ _ _ _ _ _ h => ?_,
      fun _ _ _ _ _ _ _ h => ?_,
      fun _ _ _ _ _ _ _ _ _ _ _ _ h => ?_⟩ <;> exact nomatch h
  | succ n ih =>
    obtain ⟨ihN, ihR, ihB, ihC, ihX, ihF, ihE, ihL⟩ := ih
    refine ⟨?_, ?_, ?_, ?_, ?_, ?_, ?_, ?_⟩
    · intro p el cont st inst' st' hu h
      cases el with
      | builtin k r ch =>
        simp only [Render.render, St.mount] at h
        have hinner := ihR _ _ _ _ (by simpa using hu) h
        simp only [Instance.element_mk, Instance.memory_mk] at hinner
        rw [hinner]
        have hmls : specMounts (.builtin k r ch) [] = elemBuiltins ch := by
          rw [specMounts]
          simp only [Element.edges]
          rw [specMountsLoop_fresh]
          simp [elemBuiltinsL]
        rw [hmls]
        cases r with
        | false =>
          simp only [Bool.false_eq_true, if_false]
          simp [countMount_append, countMount, List.filter_cons, Event.isMount,
            elemBuiltins]
          omega
        | true =>
          simp only [if_true]
          simp [countMount_append, countMount, List.filter_cons, Event.isMount,
            elemBuiltins]
          omega
      | component k pr effs =>
        simp only [Render.render] at h
        have hinner := ihR _ _ _ _ (by simpa using hu) h
        simp only [Instance.element_mk, Instance.memory_mk] at hinner
        rw [hinner, specMounts]
        simp only [Element.edges]
        rw [specMountsLoop_fresh]
        simp [elemBuiltinsL, elemBuiltins]
      | context k ch =>
        simp only [Render.render] at h
        have hinner := ihR _ _ _ _ (by simpa using hu) h
        simp only [Instance.element_mk, Instance.memory_mk] at hinner
        rw [hinner, specMounts]
        simp only [Element.edges]
        rw [specMountsLoop_fresh]
        simp [elemBuiltinsL, elemBuiltins]
      | fragment k els =>
        simp only [Render.render] at h
        have hinner := ihR _ _ _ _ (by simpa using hu) h
        simp only [Instance.element_mk, Instance.memory_mk] at hinner
        rw [hinner, specMounts]
        simp only [Element.edges]
        rw [specMountsLoop_fresh]
        simp [elemBuiltins]
      | string k t =>
        simp only [Render.render] at h
        cases n with
        | zero => exact nomatch h
        | succ m =>
          simp only [Render.rerender, Instance.element_mk] at h
          exact nomatch h
    · intro inst st inst' st' hu h
      cases hel : inst.element with
      | builtin k r ch =>
        simp only [Render.rerender, hel] at h
        rw [hel] at hu
        have := ihB inst ch st inst' st' (by simpa [uniqueKeysE] using hu) h
        rw [this, specMounts]
        simp [Element.edges]
      | component k pr effs =>
        simp only [Render.rerender, hel] at h
        rw [hel] at hu
        have := ihC inst pr effs st inst' st' (by simpa [uniqueKeysE] using hu) h
        rw [this, specMounts]
        simp [Element.edges]
      | context k ch =>
        simp only [Render.rerender, hel] at h
        rw [hel] at hu
        have := ihX inst ch st inst' st' (by simpa [uniqueKeysE] using hu) h
        rw [this, specMounts]
        simp [Element.edges]
      | fragment k els =>
        simp only [Render.rerender, hel] at h
        rw [hel] at hu
        simp only [uniqueKeysE, Bool.and_eq_true] at hu
        have := ihF inst els st inst' st' hu.1 (uniqueKeysL_mem hu.2) h
        rw [this, specMounts]
        simp [Element.edges]
      | string k t =>
        simp only [Render.rerender, hel] at h
        exact nomatch h
    · intro inst ch st inst' st' hu h
      simp only [Render.rerenderBuiltin] at h
      exact ihE inst [ch] st inst' st' (by simp [nodupKeys])
        (by intro e he; rcases List.mem_singleton.mp he with rfl; exact hu) h
    · intro inst pr effs st inst' st' hu h
      simp only [Render.rerenderComponent] at h
      cases hres : Render.rerenderEdges n inst [pr] st with
      | ok v =>
        obtain ⟨i1, s1⟩ := v
        simp only [hres, RRes.ok.injEq, Prod.mk.injEq] at h
        obtain ⟨_, h2⟩ := h
        have := ihE inst [pr] st i1 s1 (by simp [nodupKeys])
          (by intro e he; rcases List.mem_singleton.mp he with rfl; exact hu) hres
        rw [← h2, applyEffects_trace]
        simp only [countMount_append, countMount_effectRuns]
        omega
      | panicked => simp only [hres] at h; exact nomatch h
      | noFuel => simp only [hres] at h; exact nomatch h
    · intro inst ch st inst' st' hu h
      simp only [Render.rerenderContext] at h
      exact ihE inst [ch] st inst' st' (by simp [nodupKeys])
        (by intro e he; rcases List.mem_singleton.mp he with rfl; exact hu) h
    · intro inst els st inst' st' hnd hu h
      simp only [Render.rerenderFragment] at h
      exact ihE inst els st inst' st' hnd hu h
    · intro inst edges st inst' st' hnd hu h
      simp only [Render.rerenderEdges] at h
      cases hres : Render.edgesLoop n inst inst.memory (Memory.keys inst.memory)
          edges st with
      | ok v =>
        obtain ⟨m, ks, s⟩ := v
        simp only [hres, RRes.ok.injEq, Prod.mk.injEq] at h
        obtain ⟨_, h2⟩ := h
        have := ihL inst inst.memory inst.memory (Memory.keys inst.memory)
          edges st m ks s hnd hu (fun _ _ => rfl) hres
        rw [← h2, sweep_countMount]
        exact this
      | panicked => simp only [hres] at h; exact nomatch h
      | noFuel => simp only [hres] at h; exact nomatch h
    · intro inst memory m0 keys edges st m' k' st' hnd hu hinv h
      cases edges with
      | nil =>
        simp only [Render.edgesLoop, RRes.ok.injEq, Prod.mk.injEq] at h
        obtain ⟨_, _, h3⟩ := h
        rw [← h3]
        simp [specMountsLoop]
      | cons e rest =>
        simp only [Render.edgesLoop] at h
        have hm0 := hinv e (List.mem_cons_self e rest)
        have hne : ∀ e' ∈ rest, e'.key ≠ e.key := key_ne_of_nodup_head hnd
        simp only [List.map_cons, nodupKeys, Bool.and_eq_true,
          Bool.not_eq_true'] at hnd
        cases hme : Memory.edge memory e.key with
        | some existing =>
          simp only [hme] at h
          rw [hme] at hm0
          cases hres : Render.rerender n (existing.update e) st with
          | ok v =>
            obtain ⟨ex2, st2⟩ := v
            simp only [hres] at h
            have h1 := ihR (existing.update e) st ex2 st2
              (by simpa using hu e (List.mem_cons_self e rest)) hres
            simp only [Instance.element_update, Instance.memory_update] at h1
            have h2 := ihL inst (Memory.replaceEdge memory e.key ex2) m0
              (keys.erase e.key) rest st2 m' k' st' hnd.2
              (fun x hx => hu x (List.mem_cons_of_mem e hx))
              (fun x hx => by
                rw [edge_replaceEdge_ne ex2 (hne x hx)]
                exact hinv x (List.mem_cons_of_mem e hx)) h
            rw [specMountsLoop, ← hm0]
            simp only [hme]
            omega
          | panicked => simp only [hres] at h; exact nomatch h
          | noFuel => simp only [hres] at h; exact nomatch h
        | none =>
          simp only [hme] at h
          rw [hme] at hm0
          cases hres : Render.render n (some inst) e inst.containerId st with
          | ok v =>
            obtain ⟨child, st2⟩ := v
            simp only [hres] at h
            have h1 := ihN (some inst) e inst.containerId st child st2
              (hu e (List.mem_cons_self e rest)) hres
            have h2 := ihL inst (Memory.addEdge memory e.key child) m0
              (keys.erase e.key) rest st2 m' k' st' hnd.2
              (fun x hx => hu x (List.mem_cons_of_mem e hx))
              (fun x hx => by
                rw [edge_addEdge_ne child (hne x hx)]
                exact hinv x (List.mem_cons_of_mem e hx)) h
            rw [specMountsLoop, ← hm0]
            simp only [hme]
            omega
          | panicked => simp only [hres] at h; exact nomatch h
          | noFuel => simp only [hres] at h; exact nomatch h

/-- C4: for every reconcile pass, the number of Mount commands emitted equals
the number of newly appearing Builtin keys in the diff (`specMounts`: one per
Builtin element of every freshly rendered subtree, recursing through matched
children; the sweep contributes none), and a Mount is emitted exactly when a
fresh render encounters a Builtin element: it mounts under the current
container id, the returned fresh id (the counter value) becomes the
instance's container id, and if the Builtin carries a reference slot the id
is written into it. Key uniqueness among siblings (spec data model) is
assumed. -/
theorem mount_count_newly_builtin (fuel : Nat) (inst : Instance) (st : St)
    (p : Option Instance) (k : Nat) (r : Bool) (ch : Element) (cont : Nat) :
    (uniqueKeysE inst.element = true →
      ∀ (inst' : Instance) (st' : St),
        Render.rerender fuel inst st = .ok (inst', st') →
        countMount st'.trace =
          countMount st.trace + specMounts inst.element inst.memory) ∧
    (∀ (inst' : Instance) (st' : St),
      Render.render (fuel + 1) p (.builtin k r ch) cont st = .ok (inst', st') →
      inst'.containerId = st.counter ∧
      ∃ Δ, st'.trace = st.trace ++ Event.mount st.counter cont ::
        ((if r then [Event.refSet st.counter] else []) ++ Δ)) := by
  constructor
  · intro hu inst' st' h
    exact (mount_count_core fuel).2.1 inst st inst' st' hu h
  · intro inst' st' h
    cases r with
    | false =>
      simp only [Render.render, St.mount, Bool.false_eq_true, if_false] at h
      refine ⟨by simpa using (rerender_ok_shape h).2, ?_⟩
      obtain ⟨Δ, hΔ⟩ := (pass_trace_extends fuel).1 _ _ (inst', st') h
      simp only at hΔ
      refine ⟨Δ, ?_⟩
      rw [hΔ]
      simp
    | true =>
      simp only [Render.render, St.mount, if_true] at h
      refine ⟨by simpa using (rerender_ok_shape h).2, ?_⟩
      obtain ⟨Δ, hΔ⟩ := (pass_trace_extends fuel).1 _ _ (inst', st') h
      simp only at hΔ
      refine ⟨Δ, ?_⟩
      rw [hΔ]
      simp

/-- Witness for C4: rerendering an instance of a fragment whose memory holds
key 1 while the new edges keep key 1 (unchanged child) and add a fresh
Builtin at key 2 emits exactly one Mount; and a direct Builtin render mounts
under the given container with the fresh counter id. -/
theorem mount_count_newly_builtin_witness :
    (uniqueKeysE (Instance.mk (.fragment 0 [.fragment 1 [],
        .builtin 2 false (.fragment 3 [])]) 0
        [(1, .mk (.fragment 1 []) 0 [])]).element = true ∧
      countMount ({ counter := 6, trace := [Event.mount 5 0] } : St).trace =
        countMount ({ counter := 5, trace := [] } : St).trace +
          specMounts (Instance.mk (.fragment 0 [.fragment 1 [],
            .builtin 2 false (.fragment 3 [])]) 0
            [(1, .mk (.fragment 1 []) 0 [])]).element
            (Instance.mk (.fragment 0 [.fragment 1 [],
              .builtin 2 false (.fragment 3 [])]) 0
              [(1, .mk (.fragment 1 []) 0 [])]).memory) ∧
    ((Instance.mk (.builtin 7 true (.fragment 8 [])) 5
        [(8, .mk (.fragment 8 []) 5 [])]).containerId = 5 ∧
      ∃ Δ, ({ counter := 6, trace := [Event.mount 5 9, Event.refSet 5] } : St).trace
        = ([] : List Event) ++ Event.mount 5 9 ::
          ((if true then [Event.refSet 5] else []) ++ Δ)) := by
  have hmain := mount_count_newly_builtin 30
    (.mk (.fragment 0 [.fragment 1 [], .builtin 2 false (.fragment 3 [])]) 0
      [(1, .mk (.fragment 1 []) 0 [])])
    { counter := 5, trace := [] } none 7 true (.fragment 8 []) 9
  refine ⟨⟨?_, ?_⟩, ?_⟩
  · decide
  · exact hmain.1 (by decide)
      (.mk (.fragment 0 [.fragment 1 [], .builtin 2 false (.fragment 3 [])]) 0
        [(1, .mk (.fragment 1 []) 0 []),
         (2, .mk (.builtin 2 false (.fragment 3 [])) 5
          [(3, .mk (.fragment 3 []) 5 [])])])
      { counter := 6, trace := [Event.mount 5 0] } rfl
  · exact hmain.2
      (.mk (.builtin 7 true (.fragment 8 [])) 5
        [(8, .mk (.fragment 8 []) 5 [])])
      { counter := 6, trace := [Event.mount 5 9, Event.refSet 5] } rfl

theorem cmdEvents_append (a b : List Event) :
    cmdEvents (a ++ b) = cmdEvents a ++ cmdEvents b := by
  simp [cmdEvents, List.filter_append]

theorem cmdEvents_effectRuns (l : List Nat) :
    cmdEvents (l.map Event.effectRun) = [] := by
  induction l with
  | nil => rfl
  | cons x rest ih => simp [cmdEvents, List.filter_cons, Event.isCmd]

theorem contains_true_of_mem {l : List Nat} {a : Nat} (h : a ∈ l) :
    l.contains a = true := by
  rw [contains_eq_mem_decide]
  simpa using h

theorem filter_not_contains_sub (l0 : List Nat) :
    ∀ (l : List Nat), (∀ k ∈ l, k ∈ l0) →
      l.filter (fun k => !l0.contains k) = [] := by
  intro l
  induction l with
  | nil => intro _; rfl
  | cons k rest ih =>
    intro hsub
    rw [List.filter_cons]
    rw [contains_true_of_mem (hsub k (List.mem_cons_self k rest))]
    simp only [Bool.not_true, Bool.false_eq_true, if_false]
    exact ih (fun x hx => hsub x (List.mem_cons_of_mem k hx))

theorem unchangedEdges_keys :
    ∀ (mem : List (Nat × Instance)) (es : List Element),
      unchangedEdges mem es = true → Memory.keys mem = es.map Element.key := by
  intro mem
  induction mem with
  | nil =>
    intro es h
    cases es with
    | nil => rfl
    | cons e rest => simp [unchangedEdges] at h
  | cons p restM ih =>
    intro es h
    cases es with
    | nil => simp [unchangedEdges] at h
    | cons e restE =>
      simp only [unchangedEdges, Bool.and_eq_true, beq_iff_eq] at h
      simp only [Memory.keys, List.map_cons]
      rw [h.1.1]
      have := ih restE h.2
      simp only [Memory.keys] at this
      rw [this]

theorem unchangedEdges_lookup :
    ∀ (mem : List (Nat × Instance)) (es : List Element),
      nodupKeys (Memory.keys mem) = true → unchangedEdges mem es = true →
      ∀ e ∈ es, ∃ c, Memory.edge mem e.key = some c ∧
        unchangedE e c.memory = true := by
  intro mem
  induction mem with
  | nil =>
    intro es hnd h e he
    cases es with
    | nil => cases he
    | cons x rest => simp [unchangedEdges] at h
  | cons p restM ih =>
    intro es hnd h e he
    cases es with
    | nil => cases he
    | cons x restE =>
      simp only [unchangedEdges, Bool.and_eq_true, beq_iff_eq] at h
      obtain ⟨⟨hk, hun⟩, hrest⟩ := h
      simp only [Memory.keys, List.map_cons, nodupKeys, Bool.and_eq_true,
        Bool.not_eq_true'] at hnd
      rcases List.mem_cons.mp he with rfl | he2
      · refine ⟨p.2, ?_, hun⟩
        rw [Memory.edge, if_pos hk]
      · obtain ⟨c, hc, hcu⟩ := ih restE hnd.2 hrest e he2
        refine ⟨c, ?_, hcu⟩
        rw [Memory.edge, if_neg ?_, hc]
        intro hpk
        have hkeys := unchangedEdges_keys restM restE hrest
        have : e.key ∈ Memory.keys restM := by
          rw [hkeys]
          exact List.mem_map_of_mem Element.key he2
        exact contains_false_of_not_mem hnd.1 (hpk ▸ this)

theorem unchanged_core (fuel : Nat) :
    (∀ (inst : Instance) (st : St) (inst' : Instance) (st' : St),
      unchangedE inst.element inst.memory = true →
      Render.rerender fuel inst st = .ok (inst', st') →
      cmdEvents st'.trace = cmdEvents st.trace) ∧
    (∀ (inst : Instance) (ch : Element) (st : St) (inst' : Instance) (st' : St),
      nodupKeys (Memory.keys inst.memory) = true →
      unchangedEdges inst.memory [ch] = true →
      Render.rerenderBuiltin fuel inst ch st = .ok (inst', st') →
      cmdEvents st'.trace = cmdEvents st.trace) ∧
    (∀ (inst : Instance) (pr : Element) (effs : List Nat) (st : St)
      (inst' : Instance) (st' : St),
      nodupKeys (Memory.keys inst.memory) = true →
      unchangedEdges inst.memory [pr] = true →
      Render.rerenderComponent fuel inst pr effs st = .ok (inst', st') →
      cmdEvents st'.trace = cmdEvents st.trace) ∧
    (∀ (inst : Instance) (ch : Element) (st : St) (inst' : Instance) (st' : St),
      nodupKeys (Memory.keys inst.memory) = true →
      unchangedEdges inst.memory [ch] = true →
      Render.rerenderContext fuel inst ch st = .ok (inst', st') →
      cmdEvents st'.trace = cmdEvents st.trace) ∧
    (∀ (inst : Instance) (els : List Element) (st : St)
      (inst' : Instance) (st' : St),
      nodupKeys (Memory.keys inst.memory) = true →
      unchangedEdges inst.memory els = true →
      Render.rerenderFragment fuel inst els st = .ok (inst', st') →
      cmdEvents st'.trace = cmdEvents st.trace) ∧
    (∀ (inst : Instance) (edges : List Element) (st : St)
      (inst' : Instance) (st' : St),
      nodupKeys (Memory.keys inst.memory) = true →
      unchangedEdges inst.memory edges = true →
      Render.rerenderEdges fuel inst edges st = .ok (inst', st') →
      cmdEvents st'.trace = cmdEvents st.trace) ∧
    (∀ (inst : Instance) (memory : List (Nat × Instance)) (keys : List Nat)
      (edges : List Element) (st : St) (m' : List (Nat × Instance))
      (k' : List Nat) (st' : St),
      nodupKeys (edges.map Element.key) = true →
      (∀ e ∈ edges, ∃ c, Memory.edge memory e.key = some c ∧
        unchangedE e c.memory = true) →
      Render.edgesLoop fuel inst memory keys edges st = .ok (m', k', st') →
      cmdEvents st'.trace = cmdEvents st.trace) := by
  induction fuel with
  | zero =>
    refine ⟨fun _ _ _ _ _ h => ?_, fun _ _ _ _ _ _ _ h => ?_,
      fun _ _ _ _ _ _ _ _ h => ?_, fun _ _ _ _ _ _ _ h => ?_,
      fun _ _ _ _ _ _ _ h => ?_, fun _ _ _ _ _ _ _ h => ?_,
      fun _ _ _ _ _ _ _ _ _ _ h => ?_⟩ <;> exact nomatch h
  | succ n ih =>
    obtain ⟨ihR, ihB, ihC, ihX, ihF, ihE, ihL⟩ := ih
    refine ⟨?_, ?_, ?_, ?_, ?_, ?_, ?_⟩
    · intro inst st inst' st' hu h
      cases hel : inst.element with
      | builtin k r ch =>
        simp only [Render.rerender, hel] at h
        rw [hel] at hu
        simp only [unchangedE, Bool.and_eq_true] at hu
        exact ihB inst ch st inst' st' hu.1 hu.2 h
      | component k pr effs =>
        simp only [Render.rerender, hel] at h
        rw [hel] at hu
        simp only [unchangedE, Bool.and_eq_true] at hu
        exact ihC inst pr effs st inst' st' hu.1 hu.2 h
      | context k ch =>
        simp only [Render.rerender, hel] at h
        rw [hel] at hu
        simp only [unchangedE, Bool.and_eq_true] at hu
        exact ihX inst ch st inst' st' hu.1 hu.2 h
      | fragment k els =>
        simp only [Render.rerender, hel] at h
        rw [hel] at hu
        simp only [unchangedE, Bool.and_eq_true] at hu
        exact ihF inst els st inst' st' hu.1 hu.2 h
      | string k t =>
        rw [hel] at hu
        simp [unchangedE] at hu
    · intro inst ch st inst' st' hnd hun h
      simp only [Render.rerenderBuiltin] at h
      exact ihE inst [ch] st inst' st' hnd hun h
    · intro inst pr effs st inst' st' hnd hun h
      simp only [Render.rerenderComponent] at h
      cases hres : Render.rerenderEdges n inst [pr] st with
      | ok v =>
        obtain ⟨i1, s1⟩ := v
        simp only [hres, RRes.ok.injEq, Prod.mk.injEq] at h
        obtain ⟨_, h2⟩ := h
        have := ihE inst [pr] st i1 s1 hnd hun hres
        rw [← h2, applyEffects_trace]
        simp only [cmdEvents_append, cmdEvents_effectRuns, List.append_nil]
        exact this
      | panicked => simp only [hres] at h; exact nomatch h
      | noFuel => simp only [hres] at h; exact nomatch h
    · intro inst ch st inst' st' hnd hun h
      simp only [Render.rerenderContext] at h
      exact ihE inst [ch] st inst' st' hnd hun h
    · intro inst els st inst' st' hnd hun h
      simp only [Render.rerenderFragment] at h
      exact ihE inst els st inst' st' hnd hun h
    · intro inst edges st inst' st' hnd hun h
      simp only [Render.rerenderEdges] at h
      cases hres : Render.edgesLoop n inst inst.memory (Memory.keys inst.memory)
          edges st with
      | ok v =>
        obtain ⟨m, ks, s⟩ := v
        have hkeq := unchangedEdges_keys inst.memory edges hun
        have hks : ks = [] := by
          rw [edgesLoop_ok_keys hres, eraseAll_eq_filter edges _ hnd, hkeq]
          exact filter_not_contains_sub _ _ (fun k hk => hk)
        subst hks
        simp only [hres, Render.sweepEdges, RRes.ok.injEq, Prod.mk.injEq] at h
        obtain ⟨_, h2⟩ := h
        rw [← h2]
        refine ihL inst inst.memory (Memory.keys inst.memory) edges st m [] s
          ?_ (unchangedEdges_lookup inst.memory edges hnd hun) hres
        rw [← hkeq]
        exact hnd
      | panicked => simp only [hres] at h; exact nomatch h
      | noFuel => simp only [hres] at h; exact nomatch h
    · intro inst memory keys edges st m' k' st' hnd hmat h
      cases edges with
      | nil =>
        simp only [Render.edgesLoop, RRes.ok.injEq, Prod.mk.injEq] at h
        obtain ⟨_, _, h3⟩ := h
        rw [← h3]
      | cons e rest =>
        simp only [Render.edgesLoop] at h
        obtain ⟨c, hc, hcu⟩ := hmat e (List.mem_cons_self e rest)
        simp only [hc] at h
        cases hres : Render.rerender n (c.update e) st with
        | ok v =>
          obtain ⟨ex2, st2⟩ := v
          simp only [hres] at h
          have h1 := ihR (c.update e) st ex2 st2 (by simpa using hcu) hres
          have hne := key_ne_of_nodup_head hnd
          simp only [List.map_cons, nodupKeys, Bool.and_eq_true,
            Bool.not_eq_true'] at hnd
          have h2 := ihL inst (Memory.replaceEdge memory e.key ex2)
            (keys.erase e.key) rest st2 m' k' st' hnd.2
            (fun x hx => by
              obtain ⟨cx, hcx, hcxu⟩ := hmat x (List.mem_cons_of_mem e hx)
              exact ⟨cx, by rw [edge_replaceEdge_ne ex2 (hne x hx)]; exact hcx,
                hcxu⟩) h
          rw [h2, h1]
        | panicked => simp only [hres] at h; exact nomatch h
        | noFuel => simp only [hres] at h; exact nomatch h

/-- C3: rerendering an instance against an unchanged element tree (at every
level, the new edge keys coincide with the memory's keys and each child is
recursively unchanged — as after two successive identical element trees)
emits zero Mount and zero Unmount commands: the command subsequence of the
trace is untouched; no existing Builtin is mounted again and no key is left
unmarked, so no child is unmounted. -/
theorem unchanged_rerender_no_commands (fuel : Nat) (inst : Instance) (st : St)
    (inst' : Instance) (st' : St)
    (h : unchangedE inst.element inst.memory = true)
    (hok : Render.rerender fuel inst st = .ok (inst', st')) :
    cmdEvents st'.trace = cmdEvents st.trace :=
  (unchanged_core fuel).1 inst st inst' st' h hok

/-- Witness for C3: an instance of a fragment holding one Builtin child that
is reconciled against the identical tree; no Mount or Unmount is recorded. -/
theorem unchanged_rerender_no_commands_witness :
    unchangedE (Instance.mk (.fragment 0 [.builtin 1 false (.fragment 2 [])]) 0
      [(1, .mk (.builtin 1 false (.fragment 2 [])) 5
        [(2, .mk (.fragment 2 []) 5 [])])]).element
      (Instance.mk (.fragment 0 [.builtin 1 false (.fragment 2 [])]) 0
      [(1, .mk (.builtin 1 false (.fragment 2 [])) 5
        [(2, .mk (.fragment 2 []) 5 [])])]).memory = true ∧
    cmdEvents ({ counter := 9, trace := [] } : St).trace =
      cmdEvents ({ counter := 9, trace := [] } : St).trace := by
  have hu : unchangedE (Instance.mk
      (.fragment 0 [.builtin 1 false (.fragment 2 [])]) 0
      [(1, .mk (.builtin 1 false (.fragment 2 [])) 5
        [(2, .mk (.fragment 2 []) 5 [])])]).element
      (Instance.mk (.fragment 0 [.builtin 1 false (.fragment 2 [])]) 0
      [(1, .mk (.builtin 1 false (.fragment 2 [])) 5
        [(2, .mk (.fragment 2 []) 5 [])])]).memory = true := by
    simp [unchangedE, unchangedEdges, nodupKeys, Memory.keys, Element.key]
  refine ⟨hu, ?_⟩
  exact unchanged_rerender_no_commands 20
    (.mk (.fragment 0 [.builtin 1 false (.fragment 2 [])]) 0
      [(1, .mk (.builtin 1 false (.fragment 2 [])) 5
        [(2, .mk (.fragment 2 []) 5 [])])])
    { counter := 9, trace := [] }
    (.mk (.fragment 0 [.builtin 1 false (.fragment 2 [])]) 0
      [(1, .mk (.builtin 1 false (.fragment 2 [])) 5
        [(2, .mk (.fragment 2 []) 5 [])])])
    { counter := 9, trace := [] } hu rfl

theorem unmountSeq_append (a b : List Event) :
    unmountSeq (a ++ b) = unmountSeq a ++ unmountSeq b := by
  simp [unmountSeq, List.filterMap_append]

theorem unmountSeq_unmountMap (l : List Nat) :
    unmountSeq (l.map Event.unmount) = l := by
  induction l with
  | nil => rfl
  | cons x rest ih => simp only [List.map_cons, unmountSeq, List.filterMap_cons] at ih ⊢; rw [ih]

theorem unmountSeq_effectRuns (l : List Nat) :
    unmountSeq (l.map Event.effectRun) = [] := by
  induction l with
  | nil => rfl
  | cons x rest ih => simp only [List.map_cons, unmountSeq, List.filterMap_cons] at ih ⊢; rw [ih]

theorem nodupMemL_mem {m : List (Nat × Instance)} (h : nodupMemL m = true) :
    ∀ p ∈ m, nodupMemI p.2 = true := by
  induction m with
  | nil => intro p hp; cases hp
  | cons q rest ih =>
    simp only [nodupMemL, Bool.and_eq_true] at h
    intro p hp
    rcases List.mem_cons.mp hp with rfl | hp2
    · exact h.1
    · exact ih h.2 p hp2

theorem keys_eq_of_forallTwo {P : Nat × Instance → Nat × Instance → Prop}
    (hP : ∀ p q, P p q → p.1 = q.1) :
    ∀ {m0 mR : List (Nat × Instance)}, List.Forall₂ P m0 mR →
      Memory.keys m0 = Memory.keys mR := by
  intro m0 mR h
  induction h with
  | nil => rfl
  | cons hpq _ ih =>
    simp only [Memory.keys, List.map_cons] at ih ⊢
    rw [hP _ _ hpq, ih]

theorem replaceEdge_append_left {a : List (Nat × Instance)} {k : Nat}
    (b : List (Nat × Instance)) (i : Instance) (h : k ∈ Memory.keys a) :
    Memory.replaceEdge (a ++ b) k i = Memory.replaceEdge a k i ++ b := by
  induction a with
  | nil => cases h
  | cons p rest ih =>
    simp only [List.cons_append, Memory.replaceEdge]
    by_cases hp : p.1 = k
    · rw [if_pos hp, if_pos hp]
      rfl
    · rw [if_neg hp, if_neg hp, List.cons_append]
      have : k ∈ Memory.keys rest := by
        simp only [Memory.keys, List.map_cons, List.mem_cons] at h
        rcases h with h | h
        · exact absurd h.symm hp
        · exact h
      simp only [List.append_eq]
      rw [ih this]

theorem removeEdge_append_left {a : List (Nat × Instance)} {k : Nat}
    (b : List (Nat × Instance)) (h : k ∈ Memory.keys a) :
    Memory.removeEdge (a ++ b) k =
      ((Memory.removeEdge a k).1, (Memory.removeEdge a k).2 ++ b) := by
  induction a with
  | nil => cases h
  | cons p rest ih =>
    simp only [List.cons_append, Memory.removeEdge]
    by_cases hp : p.1 = k
    · rw [if_pos hp, if_pos hp]
      simp [List.append_eq]
    · rw [if_neg hp, if_neg hp]
      have : k ∈ Memory.keys rest := by
        simp only [Memory.keys, List.map_cons, List.mem_cons] at h
        rcases h with h | h
        · exact absurd h.symm hp
        · exact h
      simp only [List.append_eq]
      rw [ih this]
      simp

theorem keys_removeEdge (m : List (Nat × Instance)) (k : Nat) :
    Memory.keys (Memory.removeEdge m k).2 = (Memory.keys m).erase k := by
  induction m with
  | nil => rfl
  | cons p rest ih =>
    simp only [Memory.removeEdge, Memory.keys, List.map_cons]
    by_cases hp : p.1 = k
    · rw [if_pos hp]
      simp [hp]
    · rw [if_neg hp]
      rw [List.erase_cons_tail (by simpa using hp)]
      simp only [Memory.keys, List.map_cons] at ih ⊢
      rw [ih]

theorem edge_removeEdge_ne {m : List (Nat × Instance)} {k q : Nat}
    (h : q ≠ k) :
    Memory.edge (Memory.removeEdge m k).2 q = Memory.edge m q := by
  induction m with
  | nil => rfl
  | cons p rest ih =>
    simp only [Memory.removeEdge]
    by_cases hp : p.1 = k
    · rw [if_pos hp]
      simp only [Memory.edge]
      rw [if_neg (by omega)]
    · rw [if_neg hp]
      simp only [Memory.edge]
      by_cases hq : p.1 = q
      · rw [if_pos hq, if_pos hq]
      · rw [if_neg hq, if_neg hq]
        exact ih

theorem forallTwo_replaceEdge {EK : List Nat} {k : Nat} (i : Instance) :
    ∀ {m0 mR : List (Nat × Instance)},
      List.Forall₂ (fun p q => p.1 = q.1 ∧ (p.1 ∉ EK → p = q)) m0 mR →
      k ∈ EK →
      List.Forall₂ (fun p q => p.1 = q.1 ∧ (p.1 ∉ EK → p = q)) m0
        (Memory.replaceEdge mR k i) := by
  intro m0 mR h hk
  induction h with
  | nil => exact List.Forall₂.nil
  | cons hpq htail ih =>
    rename_i p q m0t mRt
    simp only [Memory.replaceEdge]
    by_cases hq : q.1 = k
    · rw [if_pos hq]
      refine List.Forall₂.cons ⟨?_, ?_⟩ htail
      · rw [hpq.1, hq]
      · intro hnotin
        exact absurd (hpq.1 ▸ (hq ▸ hk)) hnotin
    · rw [if_neg hq]
      exact List.Forall₂.cons hpq ih

theorem removeEdge_forallTwo {ks : List Nat} {k : Nat} (hk : k ∈ ks) :
    ∀ {m0 mR : List (Nat × Instance)},
      List.Forall₂ (fun p q => p.1 = q.1 ∧ (p.1 ∈ ks → p = q)) m0 mR →
      k ∈ Memory.keys m0 →
      ∃ c, Memory.edge m0 k = some c ∧
        (Memory.removeEdge mR k).1 = some c ∧
        List.Forall₂ (fun p q => p.1 = q.1 ∧ (p.1 ∈ ks → p = q))
          (Memory.removeEdge m0 k).2 (Memory.removeEdge mR k).2 := by
  intro m0 mR h hmem
  induction h with
  | nil => cases hmem
  | cons hpq htail ih =>
    rename_i p q m0t mRt
    by_cases hp : p.1 = k
    · have hpq2 := hpq.2 (hp ▸ hk)
      subst hpq2
      refine ⟨p.2, ?_, ?_, ?_⟩
      · rw [Memory.edge, if_pos hp]
      · rw [Memory.removeEdge, if_pos hp]
      · rw [Memory.removeEdge, Memory.removeEdge, if_pos hp, if_pos hp]
        exact htail
    · have hq : q.1 ≠ k := by rw [← hpq.1]; exact hp
      have hmem2 : k ∈ Memory.keys m0t := by
        simp only [Memory.keys, List.map_cons, List.mem_cons] at hmem
        rcases hmem with h1 | h1
        · exact absurd h1.symm hp
        · exact h1
      obtain ⟨c, hc1, hc2, hc3⟩ := ih hmem2
      refine ⟨c, ?_, ?_, ?_⟩
      · rw [Memory.edge, if_neg hp]
        exact hc1
      · rw [Memory.removeEdge, if_neg hq]
        simpa using hc2
      · rw [Memory.removeEdge, Memory.removeEdge, if_neg hp, if_neg hq]
        exact List.Forall₂.cons hpq (by simpa using hc3)

theorem nodupKeys_filter (p : Nat → Bool) :
    ∀ {l : List Nat}, nodupKeys l = true → nodupKeys (l.filter p) = true := by
  intro l h
  induction l with
  | nil => rfl
  | cons k rest ih =>
    simp only [nodupKeys, Bool.and_eq_true, Bool.not_eq_true'] at h
    rw [List.filter_cons]
    cases hp : p k with
    | false => exact ih h.2
    | true =>
      simp only [if_true, nodupKeys, Bool.and_eq_true, Bool.not_eq_true']
      refine ⟨?_, ih h.2⟩
      rw [contains_eq_mem_decide]
      simp only [decide_eq_false_iff_not]
      intro hmem
      exact contains_false_of_not_mem h.1 (List.mem_of_mem_filter hmem)

theorem flatMap_congr {α β : Type} {l : List α} {f g : α → List β}
    (h : ∀ x ∈ l, f x = g x) : l.flatMap f = l.flatMap g := by
  induction l with
  | nil => rfl
  | cons x rest ih =>
    simp only [List.flatMap_cons]
    rw [h x (List.mem_cons_self x rest),
      ih (fun y hy => h y (List.mem_cons_of_mem x hy))]

theorem specUnmountsLoop_fresh (es : List Element) :
    specUnmountsLoop [] es = [] := by
  induction es with
  | nil => simp [specUnmountsLoop]
  | cons e rest ih =>
    rw [specUnmountsLoop]
    simp only [Memory.edge]
    rw [ih]
    rfl

theorem specSwept_fresh (edgeKeys : List Nat) : specSwept [] edgeKeys = [] := rfl

theorem specUnmounts_fresh (el : Element) : specUnmounts el [] = [] := by
  rw [specUnmounts, specUnmountsLoop_fresh, specSwept_fresh]
  rfl

theorem nodupMemI_parts {i : Instance} (h : nodupMemI i = true) :
    nodupKeys (Memory.keys i.memory) = true ∧ nodupMemL i.memory = true := by
  cases i with
  | mk el c m => simpa [nodupMemI, Bool.and_eq_true] using h

theorem sweep_spec (ks : List Nat) :
    ∀ (m0 mR fresh : List (Nat × Instance)) (st : St),
      nodupKeys (Memory.keys m0) = true →
      nodupKeys ks = true →
      List.Forall₂ (fun p q => p.1 = q.1 ∧ (p.1 ∈ ks → p = q)) m0 mR →
      (∀ p ∈ fresh, p.1 ∉ ks) →
      (∀ k ∈ ks, k ∈ Memory.keys m0) →
      (Render.sweepEdges ks (mR ++ fresh) st).2.trace =
        st.trace ++ (ks.flatMap (fun k =>
          match Memory.edge m0 k with
          | some c => removedBuiltinIds c
          | none => [])).map Event.unmount := by
  induction ks with
  | nil =>
    intro m0 mR fresh st _ _ _ _ _
    simp [Render.sweepEdges]
  | cons k rest ih =>
    intro m0 mR fresh st hnd hks hforall hfresh hsub
    simp only [nodupKeys, Bool.and_eq_true, Bool.not_eq_true'] at hks
    have hkm0 : k ∈ Memory.keys m0 := hsub k (List.mem_cons_self k rest)
    have hkeys : Memory.keys m0 = Memory.keys mR :=
      keys_eq_of_forallTwo (fun p q hpq => hpq.1) hforall
    have hkmR : k ∈ Memory.keys mR := hkeys ▸ hkm0
    obtain ⟨c, hc1, hc2, hc3⟩ :=
      removeEdge_forallTwo (List.mem_cons_self k rest) hforall hkm0
    simp only [Render.sweepEdges]
    rw [removeEdge_append_left fresh hkmR]
    rw [hc2]
    have hknotrest : k ∉ rest := contains_false_of_not_mem hks.1
    have ihapp := ih (Memory.removeEdge m0 k).2 (Memory.removeEdge mR k).2 fresh
      (Render.unmount c st)
      (by rw [keys_removeEdge]; exact nodupKeys_erase k hnd)
      hks.2
      (hc3.imp (fun p q hpq => ⟨hpq.1, fun hin => hpq.2 (List.mem_cons_of_mem k hin)⟩))
      (fun p hp hin => hfresh p hp (List.mem_cons_of_mem k hin))
      (fun x hx => by
        rw [keys_removeEdge]
        have hxk : x ≠ k := fun he => hknotrest (he ▸ hx)
        exact (List.mem_erase_of_ne hxk).mpr (hsub x (List.mem_cons_of_mem k hx)))
    rw [ihapp, unmount_trace]
    simp only [List.flatMap_cons, hc1]
    have hcong : rest.flatMap (fun x =>
        match Memory.edge (Memory.removeEdge m0 k).2 x with
        | some c2 => removedBuiltinIds c2
        | none => []) = rest.flatMap (fun x =>
        match Memory.edge m0 x with
        | some c2 => removedBuiltinIds c2
        | none => []) := by
      apply flatMap_congr
      intro x hx
      have hxk : x ≠ k := fun he => hknotrest (he ▸ hx)
      rw [edge_removeEdge_ne hxk]
    rw [hcong]
    simp

theorem unmount_core (fuel : Nat) :
    (∀ (p : Option Instance) (el : Element) (cont : Nat) (st : St)
      (inst' : Instance) (st' : St), uniqueKeysE el = true →
      Render.render fuel p el cont st = .ok (inst', st') →
      unmountSeq st'.trace = unmountSeq st.trace) ∧
    (∀ (inst : Instance) (st : St) (inst' : Instance) (st' : St),
      uniqueKeysE inst.element = true →
      nodupKeys (Memory.keys inst.memory) = true →
      nodupMemL inst.memory = true →
      Render.rerender fuel inst st = .ok (inst', st') →
      unmountSeq st'.trace =
        unmountSeq st.trace ++ specUnmounts inst.element inst.memory) ∧
    (∀ (inst : Instance) (ch : Element) (st : St) (inst' : Instance) (st' : St),
      uniqueKeysE ch = true →
      nodupKeys (Memory.keys inst.memory) = true →
      nodupMemL inst.memory = true →
      Render.rerenderBuiltin fuel inst ch st = .ok (inst', st') →
      unmountSeq st'.trace = unmountSeq st.trace ++
        (specUnmountsLoop inst.memory [ch] ++
          specSwept inst.memory ([ch].map Element.key))) ∧
    (∀ (inst : Instance) (pr : Element) (effs : List Nat) (st : St)
      (inst' : Instance) (st' : St), uniqueKeysE pr = true →
      nodupKeys (Memory.keys inst.memory) = true →
      nodupMemL inst.memory = true →
      Render.rerenderComponent fuel inst pr effs st = .ok (inst', st') →
      unmountSeq st'.trace = unmountSeq st.trace ++
        (specUnmountsLoop inst.memory [pr] ++
          specSwept inst.memory ([pr].map Element.key))) ∧
    (∀ (inst : Instance) (ch : Element) (st : St) (inst' : Instance) (st' : St),
      uniqueKeysE ch = true →
      nodupKeys (Memory.keys inst.memory) = true →
      nodupMemL inst.memory = true →
      Render.rerenderContext fuel inst ch st = .ok (inst', st') →
      unmountSeq st'.trace = unmountSeq st.trace ++
        (specUnmountsLoop inst.memory [ch] ++
          specSwept inst.memory ([ch].map Element.key))) ∧
    (∀ (inst : Instance) (els : List Element) (st : St)
      (inst' : Instance) (st' : St),
      nodupKeys (els.map Element.key) = true →
      (∀ e ∈ els, uniqueKeysE e = true) →
      nodupKeys (Memory.keys inst.memory) = true →
      nodupMemL inst.memory = true →
      Render.rerenderFragment fuel inst els st = .ok (inst', st') →
      unmountSeq st'.trace = unmountSeq st.trace ++
        (specUnmountsLoop inst.memory els ++
          specSwept inst.memory (els.map Element.key))) ∧
    (∀ (inst : Instance) (edges : List Element) (st : St)
      (inst' : Instance) (st' : St),
      nodupKeys (edges.map Element.key) = true →
      (∀ e ∈ edges, uniqueKeysE e = true) →
      nodupKeys (Memory.keys inst.memory) = true →
      nodupMemL inst.memory = true →
      Render.rerenderEdges fuel inst edges st = .ok (inst', st') →
      unmountSeq st'.trace = unmountSeq st.trace ++
        (specUnmountsLoop inst.memory edges ++
          specSwept inst.memory (edges.map Element.key))) ∧
    (∀ (inst : Instance) (memory mR fresh m0 : List (Nat × Instance))
      (EK : List Nat) (keys : List Nat) (edges : List Element) (st : St)
      (m' : List (Nat × Instance)) (k' : List Nat) (st' : St),
      memory = mR ++ fresh →
      nodupKeys (edges.map Element.key) = true →
      (∀ e ∈ edges, uniqueKeysE e = true) →
      nodupMemL m0 = true →
      (∀ e ∈ edges, Memory.edge memory e.key = Memory.edge m0 e.key) →
      List.Forall₂ (fun p q => p.1 = q.1 ∧ (p.1 ∉ EK → p = q)) m0 mR →
      (∀ p ∈ fresh, p.1 ∈ EK) →
      (∀ e ∈ edges, e.key ∈ EK) →
      Render.edgesLoop fuel inst memory keys edges st = .ok (m', k', st') →
      unmountSeq st'.trace = unmountSeq st.trace ++ specUnmountsLoop m0 edges ∧
      ∃ mR2 fresh2, m' = mR2 ++ fresh2 ∧
        List.Forall₂ (fun p q => p.1 = q.1 ∧ (p.1 ∉ EK → p = q)) m0 mR2 ∧
        ∀ p ∈ fresh2, p.1 ∈ EK) := by
  induction fuel with
  | zero =>
    refine ⟨?_, ?_, ?_, ?_, ?_, ?_, ?_, ?_⟩ <;>
      (intros; rename_i h; exact nomatch h)
  | succ n ih =>
    obtain ⟨ihN, ihR, ihB, ihC, ihX, ihF, ihE, ihL⟩ := ih
    refine ⟨?_, ?_, ?_, ?_, ?_, ?_, ?_, ?_⟩
    · intro p el cont st inst' st' hu h
      cases el with
      | builtin k r ch =>
        cases r with
        | false =>
          simp only [Render.render, St.mount, Bool.false_eq_true, if_false] at h
          have := ihR _ _ _ _ (by simpa using hu) (by rfl) (by rfl) h
          simp only [Instance.element_mk, Instance.memory_mk,
            specUnmounts_fresh, List.append_nil] at this
          rw [this]
          simp [unmountSeq_append, unmountSeq]
        | true =>
          simp only [Render.render, St.mount, if_true] at h
          have := ihR _ _ _ _ (by simpa using hu) (by rfl) (by rfl) h
          simp only [Instance.element_mk, Instance.memory_mk,
            specUnmounts_fresh, List.append_nil] at this
          rw [this]
          simp [unmountSeq_append, unmountSeq]
      | component k pr effs =>
        simp only [Render.render] at h
        have := ihR _ _ _ _ (by simpa using hu) (by rfl) (by rfl) h
        simpa [specUnmounts_fresh] using this
      | context k ch =>
        simp only [Render.render] at h
        have := ihR _ _ _ _ (by simpa using hu) (by rfl) (by rfl) h
        simpa [specUnmounts_fresh] using this
      | fragment k els =>
        simp only [Render.render] at h
        have := ihR _ _ _ _ (by simpa using hu) (by rfl) (by rfl) h
        simpa [specUnmounts_fresh] using this
      | string k t =>
        simp only [Render.render] at h
        cases n with
        | zero => exact nomatch h
        | succ m =>
          simp only [Render.rerender, Instance.element_mk] at h
          exact nomatch h
    · intro inst st inst' st' hu hnk hnm h
      cases hel : inst.element with
      | builtin k r ch =>
        simp only [Render.rerender, hel] at h
        rw [hel] at hu
        have := ihB inst ch st inst' st' (by simpa [uniqueKeysE] using hu)
          hnk hnm h
        rw [this, specUnmounts]
        simp [Element.edges]
      | component k pr effs =>
        simp only [Render.rerender, hel] at h
        rw [hel] at hu
        have := ihC inst pr effs st inst' st' (by simpa [uniqueKeysE] using hu)
          hnk hnm h
        rw [this, specUnmounts]
        simp [Element.edges]
      | context k ch =>
        simp only [Render.rerender, hel] at h
        rw [hel] at hu
        have := ihX inst ch st inst' st' (by simpa [uniqueKeysE] using hu)
          hnk hnm h
        rw [this, specUnmounts]
        simp [Element.edges]
      | fragment k els =>
        simp only [Render.rerender, hel] at h
        rw [hel] at hu
        simp only [uniqueKeysE, Bool.and_eq_true] at hu
        have := ihF inst els st inst' st' hu.1 (uniqueKeysL_mem hu.2) hnk hnm h
        rw [this, specUnmounts]
        simp [Element.edges]
      | string k t =>
        simp only [Render.rerender, hel] at h
        exact nomatch h
    · intro inst ch st inst' st' hu hnk hnm h
      simp only [Render.rerenderBuiltin] at h
      exact ihE inst [ch] st inst' st' (by simp [nodupKeys])
        (by intro e he; rcases List.mem_singleton.mp he with rfl; exact hu)
        hnk hnm h
    · intro inst pr effs st inst' st' hu hnk hnm h
      simp only [Render.rerenderComponent] at h
      cases hres : Render.rerenderEdges n inst [pr] st with
      | ok v =>
        obtain ⟨i1, s1⟩ := v
        simp only [hres, RRes.ok.injEq, Prod.mk.injEq] at h
        obtain ⟨_, h2⟩ := h
        have := ihE inst [pr] st i1 s1 (by simp [nodupKeys])
          (by intro e he; rcases List.mem_singleton.mp he with rfl; exact hu)
          hnk hnm hres
        rw [← h2, applyEffects_trace]
        simp only [unmountSeq_append, unmountSeq_effectRuns, List.append_nil]
        exact this
      | panicked => simp only [hres] at h; exact nomatch h
      | noFuel => simp only [hres] at h; exact nomatch h
    · intro inst ch st inst' st' hu hnk hnm h
      simp only [Render.rerenderContext] at h
      exact ihE inst [ch] st inst' st' (by simp [nodupKeys])
        (by intro e he; rcases List.mem_singleton.mp he with rfl; exact hu)
        hnk hnm h
    · intro inst els st inst' st' hnd hu hnk hnm h
      simp only [Render.rerenderFragment] at h
      exact ihE inst els st inst' st' hnd hu hnk hnm h
    · intro inst edges st inst' st' hnd hu hnk hnm h
      simp only [Render.rerenderEdges] at h
      cases hres : Render.edgesLoop n inst inst.memory (Memory.keys inst.memory)
          edges st with
      | ok v =>
        obtain ⟨m, ks0, s⟩ := v
        have hks0 : ks0 = (Memory.keys inst.memory).filter
            (fun k => !(edges.map Element.key).contains k) := by
          rw [edgesLoop_ok_keys hres]
          exact eraseAll_eq_filter edges (Memory.keys inst.memory) hnk
        obtain ⟨hloop, mR2, fresh2, hm, hforall2, hfresh2⟩ :=
          ihL inst inst.memory inst.memory [] inst.memory
            (edges.map Element.key) (Memory.keys inst.memory) edges st m ks0 s
            (List.append_nil inst.memory).symm hnd hu hnm (fun _ _ => rfl)
            (List.forall₂_same.mpr (fun p _ => ⟨rfl, fun _ => rfl⟩))
            (fun p hp => absurd hp (List.not_mem_nil p))
            (fun e he => List.mem_map_of_mem Element.key he) hres
        have hnotEK : ∀ x ∈ ks0, x ∉ edges.map Element.key := by
          intro x hx
          rw [hks0] at hx
          have := (List.mem_filter.mp hx).2
          simp only [Bool.not_eq_true'] at this
          exact contains_false_of_not_mem this
        have hsweep := sweep_spec ks0 inst.memory mR2 fresh2 s hnk
          (by rw [hks0]; exact nodupKeys_filter _ hnk)
          (hforall2.imp (fun p q hpq => ⟨hpq.1, fun hin => hpq.2 (hnotEK p.1 hin)⟩))
          (fun p hp hin => hnotEK p.1 hin (hfresh2 p hp))
          (fun k hk => by rw [hks0] at hk; exact (List.mem_filter.mp hk).1)
        simp only [hres, RRes.ok.injEq, Prod.mk.injEq] at h
        obtain ⟨_, h2⟩ := h
        rw [← h2, hm, hsweep, unmountSeq_append, unmountSeq_unmountMap, hloop]
        rw [specSwept, ← hks0]
        simp
      | panicked => simp only [hres] at h; exact nomatch h
      | noFuel => simp only [hres] at h; exact nomatch h
    · intro inst memory mR fresh m0 EK keys edges st m' k' st' hsplit hnd hu
        hnm hinv hforall hfresh hEK h
      cases edges with
      | nil =>
        simp only [Render.edgesLoop, RRes.ok.injEq, Prod.mk.injEq] at h
        obtain ⟨h1, _, h3⟩ := h
        rw [← h3, ← h1, hsplit]
        exact ⟨by simp [specUnmountsLoop], mR, fresh, rfl, hforall, hfresh⟩
      | cons e rest =>
        simp only [Render.edgesLoop] at h
        have hm0e := hinv e (List.mem_cons_self e rest)
        have hne := key_ne_of_nodup_head hnd
        simp only [List.map_cons, nodupKeys, Bool.and_eq_true,
          Bool.not_eq_true'] at hnd
        cases hme : Memory.edge memory e.key with
        | some c =>
          simp only [hme] at h
          rw [hme] at hm0e
          have hcm0 : Memory.edge m0 e.key = some c := hm0e.symm
          have hcmem : (e.key, c) ∈ m0 := edge_some_mem hcm0
          have hcnd := nodupMemI_parts (nodupMemL_mem hnm (e.key, c) hcmem)
          cases hres : Render.rerender n (c.update e) st with
          | ok v =>
            obtain ⟨ex2, st2⟩ := v
            simp only [hres] at h
            have h1 := ihR (c.update e) st ex2 st2
              (by simpa using hu e (List.mem_cons_self e rest))
              (by simpa using hcnd.1) (by simpa using hcnd.2) hres
            simp only [Instance.element_update, Instance.memory_update] at h1
            have hkeyin : e.key ∈ Memory.keys mR := by
              rw [← keys_eq_of_forallTwo (fun p q hpq => hpq.1) hforall]
              exact List.mem_map_of_mem Prod.fst hcmem
            have hrepl : Memory.replaceEdge memory e.key ex2 =
                Memory.replaceEdge mR e.key ex2 ++ fresh := by
              rw [hsplit]
              exact replaceEdge_append_left fresh ex2 hkeyin
            obtain ⟨hloop, mR2, fresh2, hm2, hf2, hfr2⟩ :=
              ihL inst (Memory.replaceEdge memory e.key ex2)
                (Memory.replaceEdge mR e.key ex2) fresh m0 EK
                (keys.erase e.key) rest st2 m' k' st' hrepl hnd.2
                (fun x hx => hu x (List.mem_cons_of_mem e hx)) hnm
                (fun x hx => by
                  rw [edge_replaceEdge_ne ex2 (hne x hx)]
                  exact hinv x (List.mem_cons_of_mem e hx))
                (forallTwo_replaceEdge ex2 hforall
                  (hEK e (List.mem_cons_self e rest)))
                hfresh (fun x hx => hEK x (List.mem_cons_of_mem e hx)) h
            refine ⟨?_, mR2, fresh2, hm2, hf2, hfr2⟩
            rw [hloop, h1, specUnmountsLoop, hcm0]
            simp
          | panicked => simp only [hres] at h; exact nomatch h
          | noFuel => simp only [hres] at h; exact nomatch h
        | none =>
          simp only [hme] at h
          rw [hme] at hm0e
          have hcm0 : Memory.edge m0 e.key = none := hm0e.symm
          cases hres : Render.render n (some inst) e inst.containerId st with
          | ok v =>
            obtain ⟨child, st2⟩ := v
            simp only [hres] at h
            have h1 := ihN (some inst) e inst.containerId st child st2
              (hu e (List.mem_cons_self e rest)) hres
            have hadd : Memory.addEdge memory e.key child =
                mR ++ (fresh ++ [(e.key, child)]) := by
              rw [hsplit, Memory.addEdge, List.append_assoc]
            obtain ⟨hloop, mR2, fresh2, hm2, hf2, hfr2⟩ :=
              ihL inst (Memory.addEdge memory e.key child) mR
                (fresh ++ [(e.key, child)]) m0 EK
                (keys.erase e.key) rest st2 m' k' st' hadd hnd.2
                (fun x hx => hu x (List.mem_cons_of_mem e hx)) hnm
                (fun x hx => by
                  rw [edge_addEdge_ne child (hne x hx)]
                  exact hinv x (List.mem_cons_of_mem e hx))
                hforall
                (fun p hp => by
                  rcases List.mem_append.mp hp with h1 | h1
                  · exact hfresh p h1
                  · rcases List.mem_singleton.mp h1 with rfl
                    exact hEK e (List.mem_cons_self e rest))
                (fun x hx => hEK x (List.mem_cons_of_mem e hx)) h
            refine ⟨?_, mR2, fresh2, hm2, hf2, hfr2⟩
            rw [hloop, h1, specUnmountsLoop, hcm0]
            simp
          | panicked => simp only [hres] at h; exact nomatch h
          | noFuel => simp only [hres] at h; exact nomatch h

/-- C2: for every reconcile pass, the Unmount commands emitted are exactly,
in emission order, the container ids of the Builtin instances whose keys
disappeared from their parent's new edge set (`specUnmounts`: per removed
child subtree, its Builtin instances in post-order) — so their number equals
the count of removed Builtin instances including descendants; and
`Render::unmount` itself records, for an instance being removed, its
descendants' Unmount commands (children in memory order, recursively) before
its own, while an instance whose element is not Builtin contributes no
Unmount command of its own (`removedBuiltinIds`). The hypotheses are spec
invariant I2 — duplicate-free sibling keys — for the element and instance
trees. -/
theorem unmount_count_removed_postorder (fuel : Nat) (inst : Instance)
    (st : St) (instU : Instance) (stU : St) :
    (uniqueKeysE inst.element = true →
      nodupKeys (Memory.keys inst.memory) = true →
      nodupMemL inst.memory = true →
      ∀ (inst' : Instance) (st' : St),
        Render.rerender fuel inst st = .ok (inst', st') →
        unmountSeq st'.trace =
          unmountSeq st.trace ++ specUnmounts inst.element inst.memory) ∧
    Render.unmount instU stU =
      { counter := stU.counter,
        trace := stU.trace ++ (removedBuiltinIds instU).map Event.unmount } :=
  ⟨fun hu hnk hnm inst' st' h =>
    (unmount_core fuel).2.1 inst st inst' st' hu hnk hnm h,
   unmount_trace instU stU⟩

/-- Witness for C2: a fragment instance whose memory holds a Builtin subtree
at key 1 (containers 3 and 4) and a fragment child at key 2; the new edges
keep only key 2, so the pass records Unmount 4 then Unmount 3 (post-order). -/
theorem unmount_count_removed_postorder_witness :
    uniqueKeysE (Instance.mk (.fragment 0 [.fragment 2 []]) 0
      [(1, .mk (.builtin 1 false (.fragment 5 [.builtin 6 false (.fragment 7 [])])) 3
        [(5, .mk (.fragment 5 [.builtin 6 false (.fragment 7 [])]) 3
          [(6, .mk (.builtin 6 false (.fragment 7 [])) 4
            [(7, .mk (.fragment 7 []) 4 [])])])]),
       (2, .mk (.fragment 2 []) 0 [])]).element = true ∧
    nodupKeys (Memory.keys (Instance.mk (.fragment 0 [.fragment 2 []]) 0
      [(1, .mk (.builtin 1 false (.fragment 5 [.builtin 6 false (.fragment 7 [])])) 3
        [(5, .mk (.fragment 5 [.builtin 6 false (.fragment 7 [])]) 3
          [(6, .mk (.builtin 6 false (.fragment 7 [])) 4
            [(7, .mk (.fragment 7 []) 4 [])])])]),
       (2, .mk (.fragment 2 []) 0 [])]).memory) = true ∧
    nodupMemL (Instance.mk (.fragment 0 [.fragment 2 []]) 0
      [(1, .mk (.builtin 1 false (.fragment 5 [.builtin 6 false (.fragment 7 [])])) 3
        [(5, .mk (.fragment 5 [.builtin 6 false (.fragment 7 [])]) 3
          [(6, .mk (.builtin 6 false (.fragment 7 [])) 4
            [(7, .mk (.fragment 7 []) 4 [])])])]),
       (2, .mk (.fragment 2 []) 0 [])]).memory = true ∧
    unmountSeq ({ counter := 9, trace := [Event.unmount 4, Event.unmount 3] } : St).trace =
      unmountSeq ({ counter := 9, trace := [] } : St).trace ++
        specUnmounts (Instance.mk (.fragment 0 [.fragment 2 []]) 0
          [(1, .mk (.builtin 1 false (.fragment 5 [.builtin 6 false (.fragment 7 [])])) 3
            [(5, .mk (.fragment 5 [.builtin 6 false (.fragment 7 [])]) 3
              [(6, .mk (.builtin 6 false (.fragment 7 [])) 4
                [(7, .mk (.fragment 7 []) 4 [])])])]),
           (2, .mk (.fragment 2 []) 0 [])]).element
          (Instance.mk (.fragment 0 [.fragment 2 []]) 0
          [(1, .mk (.builtin 1 false (.fragment 5 [.builtin 6 false (.fragment 7 [])])) 3
            [(5, .mk (.fragment 5 [.builtin 6 false (.fragment 7 [])]) 3
              [(6, .mk (.builtin 6 false (.fragment 7 [])) 4
                [(7, .mk (.fragment 7 []) 4 [])])])]),
           (2, .mk (.fragment 2 []) 0 [])]).memory := by
  refine ⟨by decide, by decide, by decide, ?_⟩
  exact (unmount_count_removed_postorder 20
    (.mk (.fragment 0 [.fragment 2 []]) 0
      [(1, .mk (.builtin 1 false (.fragment 5 [.builtin 6 false (.fragment 7 [])])) 3
        [(5, .mk (.fragment 5 [.builtin 6 false (.fragment 7 [])]) 3
          [(6, .mk (.builtin 6 false (.fragment 7 [])) 4
            [(7, .mk (.fragment 7 []) 4 [])])])]),
       (2, .mk (.fragment 2 []) 0 [])])
    { counter := 9, trace := [] }
    (.mk (.fragment 99 []) 0 []) { counter := 0, trace := [] }).1
    (by decide) (by decide) (by decide)
    (.mk (.fragment 0 [.fragment 2 []]) 0 [(2, .mk (.fragment 2 []) 0 [])])
    { counter := 9, trace := [Event.unmount 4, Event.unmount 3] } rfl

/-- C6: every instance created by a fresh render whose element is not a
Builtin receives the container id it was rendered into — and recursively,
every instance of the created subtree whose element is not a Builtin has
exactly its parent instance's container id, because `rerender_edges` renders
fresh children into `instance.container()`; only Builtin elements receive a
newly mounted container id. The hypothesis is the spec's data-model
assumption that keys are unique among siblings. -/
theorem nonbuiltin_inherits_container (fuel : Nat) (p : Option Instance)
    (el : Element) (cont : Nat) (st : St) (inst' : Instance) (st' : St)
    (hu : uniqueKeysE el = true)
    (hok : Render.render fuel p el cont st = .ok (inst', st')) :
    ContOk cont inst' ∧ (el.isBuiltin = false → inst'.containerId = cont) := by
  have hc := (contOk_core fuel).1 p el cont st inst' st' hu hok
  refine ⟨hc, ?_⟩
  intro hb
  cases hc with
  | intro pc el2 c2 mem2 hSelf hMem =>
    have : el2 = el := by
      cases fuel with
      | zero => exact nomatch hok
      | succ m =>
        simp only [Render.render] at hok
        have := (rerender_ok_shape hok).1
        simpa using this
    simp only [Instance.containerId_mk]
    exact hSelf (this ▸ hb)

/-- Witness for C6: a fragment with a Builtin child and a Context child,
rendered into container 0. -/
theorem nonbuiltin_inherits_container_witness :
    uniqueKeysE (.fragment 0 [.builtin 1 false (.fragment 9 []),
      .context 2 (.fragment 3 [])]) = true ∧
    (ContOk 0 (.mk (.fragment 0 [.builtin 1 false (.fragment 9 []),
        .context 2 (.fragment 3 [])]) 0
        [(1, .mk (.builtin 1 false (.fragment 9 [])) 7
          [(9, .mk (.fragment 9 []) 7 [])]),
         (2, .mk (.context 2 (.fragment 3 [])) 0
          [(3, .mk (.fragment 3 []) 0 [])])]) ∧
      ((Element.fragment 0 [.builtin 1 false (.fragment 9 []),
        .context 2 (.fragment 3 [])]).isBuiltin = false →
        (Instance.mk (.fragment 0 [.builtin 1 false (.fragment 9 []),
          .context 2 (.fragment 3 [])]) 0
          [(1, .mk (.builtin 1 false (.fragment 9 [])) 7
            [(9, .mk (.fragment 9 []) 7 [])]),
           (2, .mk (.context 2 (.fragment 3 [])) 0
            [(3, .mk (.fragment 3 []) 0 [])])]).containerId = 0)) :=
  ⟨by decide,
   nonbuiltin_inherits_container 30 none
     (.fragment 0 [.builtin 1 false (.fragment 9 []),
       .context 2 (.fragment 3 [])]) 0 { counter := 7, trace := [] }
     (.mk (.fragment 0 [.builtin 1 false (.fragment 9 []),
       .context 2 (.fragment 3 [])]) 0
       [(1, .mk (.builtin 1 false (.fragment 9 [])) 7
         [(9, .mk (.fragment 9 []) 7 [])]),
        (2, .mk (.context 2 (.fragment 3 [])) 0
         [(3, .mk (.fragment 3 []) 0 [])])])
     { counter := 8, trace := [Event.mount 7 0] }
     (by decide) rfl⟩

/-- C1: edge reconciliation is exactly the spec's mark-and-sweep: as long as
the instance's memory keys are duplicate-free (spec invariant I2), the source
loop — mark each new element's key live, overwrite-and-rerender an existing
child at that key or fresh-render with this instance as parent and its
container id and insert — followed by the sweep of still-marked keys, agrees
with the specification-worded pass `rerenderEdgesSpec`, which removes and
unmounts exactly the children whose keys are not present in the new edge
list. -/
theorem rerender_edges_mark_sweep (fuel : Nat) (inst : Instance)
    (edges : List Element) (st : St)
    (h : nodupKeys (Memory.keys inst.memory) = true) :
    Render.rerenderEdges fuel inst edges st = rerenderEdgesSpec fuel inst edges st := by
  cases fuel with
  | zero => rfl
  | succ n =>
    simp only [Render.rerenderEdges, rerenderEdgesSpec, edgesLoop_eq_specLoop]
    cases hres : specEdgesLoop n inst inst.memory edges st with
    | ok v =>
      obtain ⟨m, s⟩ := v
      simp only [eraseAll_eq_filter edges (Memory.keys inst.memory) h]
    | panicked => rfl
    | noFuel => rfl

/-- Witness for C1 at a concrete reconcile: a memory holding children at keys
3 and 4, new edges keeping key 3 (as a Context now) and introducing key 9. -/
theorem rerender_edges_mark_sweep_witness :
    nodupKeys (Memory.keys
      [(3, Instance.mk (.fragment 3 []) 0 []),
       (4, Instance.mk (.builtin 4 false (.fragment 7 [])) 5 [])]) = true ∧
    Render.rerenderEdges 20
      (.mk (.fragment 0 [])
        0
        [(3, Instance.mk (.fragment 3 []) 0 []),
         (4, Instance.mk (.builtin 4 false (.fragment 7 [])) 5 [])])
      [.context 3 (.fragment 6 []), .builtin 9 true (.fragment 8 [])]
      { counter := 10, trace := [] } =
    rerenderEdgesSpec 20
      (.mk (.fragment 0 [])
        0
        [(3, Instance.mk (.fragment 3 []) 0 []),
         (4, Instance.mk (.builtin 4 false (.fragment 7 [])) 5 [])])
      [.context 3 (.fragment 6 []), .builtin 9 true (.fragment 8 [])]
      { counter := 10, trace := [] } :=
  ⟨by decide,
   rerender_edges_mark_sweep 20
     (.mk (.fragment 0 [])
       0
       [(3, Instance.mk (.fragment 3 []) 0 []),
        (4, Instance.mk (.builtin 4 false (.fragment 7 [])) 5 [])])
     [.context 3 (.fragment 6 []), .builtin 9 true (.fragment 8 [])]
     { counter := 10, trace := [] } (by decide)⟩

end Polyhorn
